import Mathlib

/-!
# gh-dlp: a verification development of `main.go`

The program downloads one sub-directory of a GitHub repository.  This file
embeds its functions in Lean and proves properties of them.

Conventions of the embedding:

* a Go `string` is a list of characters (`Str`);
* a Go `error` is the text of its message, and a function returning
  `(T, error)` returns `Except Str T`;
* the network, the local filesystem, standard input and standard output are
  explicit state (`Remote`, `World`);
* recursion that Go leaves unbounded takes a fuel argument.
-/

namespace GhDlp

/-- Go strings, as lists of characters. -/
abbrev Str := List Char

/-- Payload of a file, as a list of bytes. -/
abbrev Bytes := List Nat

deriving instance DecidableEq for Except

/-! ## Data model (`main.go` lines 16-29) -/

/-- One entry of a directory listing (`type GitHubContent struct`). -/
structure GitHubContent where
  Name : Str
  Path : Str
  Type_ : Str
  DownloadURL : Str
  URL : Str
deriving DecidableEq, Repr

/-- The four fields extracted from a link (`type RepoInfo struct`). -/
structure RepoInfo where
  Owner : Str
  Repo : Str
  Branch : Str
  Path : Str
deriving DecidableEq, Repr

/-! ## String helpers from the Go standard library -/

/-- `strings.HasPrefix(s, pre)`. -/
def strings.HasPrefix : Str → Str → Bool
  | _, [] => true
  | [], _ :: _ => false
  | c :: s, p :: pre => c == p && strings.HasPrefix s pre

/-- What follows `pre` in `s`, when `s` starts with `pre`. -/
def dropPrefix? : Str → Str → Option Str
  | [], s => some s
  | _ :: _, [] => none
  | p :: pre, c :: s => if c = p then dropPrefix? pre s else none

/-- `strings.HasSuffix(s, suf)`. -/
def strings.HasSuffix (s suf : Str) : Bool :=
  strings.HasPrefix s.reverse suf.reverse

/-- `strings.TrimSuffix(s, suf)`: `s` without the trailing `suf`, or `s` itself. -/
def strings.TrimSuffix (s suf : Str) : Str :=
  if strings.HasSuffix s suf then s.take (s.length - suf.length) else s

/-! ## The link pattern (`main.go` line 125)

`^https://github\.com/([^/]+)/([^/]+)/(?:tree|blob)/([^/]+)/(.+)$`

Go compiles the pattern with the Perl flags: a negated class such as `[^/]`
matches a line feed, `.` does not, and `^`, `$` match only at the two ends of
the text. -/

/-- The longest run of characters other than `/` at the front of `s`, and the rest
of `s`: the greedy `[^/]*`. -/
def spanNoSlash : Str → Str × Str
  | [] => ([], [])
  | c :: s => if c = '/' then ([], c :: s) else ((c :: (spanNoSlash s).1), (spanNoSlash s).2)

/-- One `([^/]+)/` of the pattern: the captured segment and what follows the slash. -/
def segment (s : Str) : Option (Str × Str) :=
  match spanNoSlash s with
  | ([], _) => none
  | (seg, c :: rest) => if c = '/' then some (seg, rest) else none
  | (_, []) => none

/-- The `(?:tree|blob)/` of the pattern: what follows it. -/
def treeOrBlob (s : Str) : Option Str :=
  match dropPrefix? "tree/".toList s with
  | some rest => some rest
  | none => dropPrefix? "blob/".toList s

/-- The final `(.+)$`: the rest of the text is not empty and holds no line feed. -/
def dotPlusToEnd (s : Str) : Bool :=
  decide (s ≠ []) && s.all (fun c => c != '\n')

/-- The four capture groups of the link pattern on `link`, if it matches. -/
def matchLink (link : Str) : Option (Str × Str × Str × Str) :=
  match dropPrefix? "https://github.com/".toList link with
  | none => none
  | some r0 =>
    match segment r0 with
    | none => none
    | some (owner, r1) =>
      match segment r1 with
      | none => none
      | some (repo, r2) =>
        match treeOrBlob r2 with
        | none => none
        | some r3 =>
          match segment r3 with
          | none => none
          | some (branch, path) =>
            if dotPlusToEnd path then some (owner, repo, branch, path) else none

/-- `re.FindStringSubmatch(link)`: the whole match and the four groups, or nothing. -/
def findStringSubmatch (link : Str) : List Str :=
  match matchLink link with
  | some (owner, repo, branch, path) => [link, owner, repo, branch, path]
  | none => []

/-- The message of the error `parseGitHubLink` returns. -/
def invalidLinkFormat : Str :=
  "invalid GitHub repository link. Expected format: https://github.com/owner/repo/tree/branch/path".toList

/-- `parseGitHubLink` (`main.go` lines 121-138). -/
def parseGitHubLink (link : Str) : Except Str RepoInfo :=
  let link := strings.TrimSuffix link "/".toList
  let groups := findStringSubmatch link
  if groups.length ≠ 5 then
    .error invalidLinkFormat
  else
    .ok { Owner := groups.getD 1 [], Repo := groups.getD 2 [],
          Branch := groups.getD 3 [], Path := groups.getD 4 [] }

/-- The language of the link pattern with its captures, read off the pattern
piece by piece. -/
def LinkPattern (link owner repo branch path : Str) : Prop :=
  ∃ kind : Str, (kind = "tree".toList ∨ kind = "blob".toList) ∧
    link = "https://github.com/".toList ++ owner ++ '/' :: repo ++ '/' :: kind
            ++ '/' :: branch ++ '/' :: path ∧
    owner ≠ [] ∧ '/' ∉ owner ∧ repo ≠ [] ∧ '/' ∉ repo ∧ branch ≠ [] ∧ '/' ∉ branch ∧
    path ≠ [] ∧ '\n' ∉ path

/-! ## Well-formed links, in the words of the specification -/

/-- The link `https://github.com/<owner>/<repo>/<kind>/<branch>/<path>`. -/
def mkLink (owner repo kind branch path : Str) : Str :=
  "https://github.com/".toList ++ owner ++ '/' :: repo ++ '/' :: kind ++ '/' :: branch
    ++ '/' :: path

/-- The fields of a well-formed link: owner, repo and branch are not empty and hold no
slash, the path is not empty and does not end in a slash. -/
def WellFormedFields (owner repo branch path : Str) : Prop :=
  owner ≠ [] ∧ '/' ∉ owner ∧ repo ≠ [] ∧ '/' ∉ repo ∧ branch ≠ [] ∧ '/' ∉ branch ∧
    path ≠ [] ∧ path.getLast? ≠ some '/'

instance (owner repo branch path : Str) : Decidable (WellFormedFields owner repo branch path) := by
  unfold WellFormedFields; infer_instance

/-- The invariant of a parsed location: every field is non-empty and the path has no
trailing slash. -/
def RepoInfo.Invariant (ri : RepoInfo) : Prop :=
  ri.Owner ≠ [] ∧ ri.Repo ≠ [] ∧ ri.Branch ≠ [] ∧ ri.Path ≠ [] ∧ ri.Path.getLast? ≠ some '/'

instance (ri : RepoInfo) : Decidable ri.Invariant := by
  unfold RepoInfo.Invariant; infer_instance

/-! ## More of the Go standard library: strings and line input -/

/-- `strings.ToLower`, on the ASCII letters.  (Go also lowers the upper-case letters
outside ASCII; none of them lowers to `y`, `e` or `s`, the letters the program compares
the result with.) -/
def strings.ToLower (s : Str) : Str :=
  s.map Char.toLower

/-- `unicode.IsSpace`. -/
def unicode.IsSpace (c : Char) : Bool :=
  let n := c.toNat
  n == 9 || n == 10 || n == 11 || n == 12 || n == 13 || n == 32 || n == 0x85 || n == 0xA0 ||
  n == 0x1680 || (0x2000 ≤ n && n ≤ 0x200a) || n == 0x2028 || n == 0x2029 || n == 0x202f ||
  n == 0x205f || n == 0x3000

/-- `strings.TrimSpace`: without the white space at either end. -/
def strings.TrimSpace (s : Str) : Str :=
  (((s.dropWhile unicode.IsSpace).reverse).dropWhile unicode.IsSpace).reverse

/-- `(*bufio.Reader).ReadString(delim)` on the text still to be read: the text up to
and including the first `delim` (all of it when there is none), and what is left. -/
def readString (delim : Char) : Str → Str × Str
  | [] => ([], [])
  | c :: s => if c = delim then ([c], s) else (c :: (readString delim s).1, (readString delim s).2)

/-! ## Paths: `path/filepath` on Unix -/

/-- `strings.Split(s, "/")`: the pieces of `s` between its slashes. -/
def splitSlash : Str → List Str
  | [] => [[]]
  | c :: s =>
    if c = '/' then [] :: splitSlash s
    else (c :: (splitSlash s).headD []) :: (splitSlash s).tail

/-- The element `..`. -/
def dotdot : Str := ['.', '.']

/-- One round of the loop of `filepath.Clean`: `stack` holds the elements written so far,
the innermost first, and `seg` is the next element of the path.  An empty element and
`.` are skipped, `..` takes back the last element when there is one to take back, and
is kept in front of a path that is not rooted. -/
def cleanStep (rooted : Bool) (stack : List Str) (seg : Str) : List Str :=
  if seg = [] ∨ seg = ['.'] then stack
  else if seg = dotdot then
    match stack with
    | [] => if rooted then [] else [dotdot]
    | top :: below =>
      if top = dotdot then (if rooted then stack else dotdot :: stack) else below
  else seg :: stack

/-- A cleaned path: whether it starts at the root, and its elements, the innermost
first.  `.` is `⟨false, []⟩` and `/` is `⟨true, []⟩`. -/
structure PathKey where
  rooted : Bool
  elems : List Str
deriving DecidableEq, Repr

/-- The cleaned form of a path. -/
def pathKey (path : Str) : PathKey :=
  let rooted := path.head? == some '/'
  ⟨rooted, (splitSlash path).foldl (cleanStep rooted) []⟩

/-- The elements `a`, `b`, `c` written `a/b/c`. -/
def joinSlash : List Str → Str
  | [] => []
  | [a] => a
  | a :: b :: rest => a ++ '/' :: joinSlash (b :: rest)

/-- The text of a cleaned path. -/
def renderKey (k : PathKey) : Str :=
  match k.elems with
  | [] => if k.rooted then ['/'] else ['.']
  | e :: up => (if k.rooted then ['/'] else []) ++ joinSlash (e :: up).reverse

/-- `filepath.Clean`. -/
def filepath.Clean (path : Str) : Str :=
  renderKey (pathKey path)

/-- `filepath.Join(a, b)`: the elements from the first non-empty one on, joined with a
slash and cleaned. -/
def filepath.Join (a b : Str) : Str :=
  if a ≠ [] then filepath.Clean (a ++ '/' :: b)
  else if b ≠ [] then filepath.Clean b
  else []

/-- `filepath.Base`: the last element of the path, after the trailing slashes are
taken off; `.` for the empty path and `/` for a path of slashes only. -/
def filepath.Base (path : Str) : Str :=
  if path = [] then ['.']
  else
    let stripped := path.reverse.dropWhile (fun c => c == '/')
    let last := (stripped.takeWhile (fun c => c != '/')).reverse
    if last = [] then ['/'] else last

/-! ## The local filesystem

The filesystem is an external collaborator of the program; this is a model of the part
of it that the program uses: a case-sensitive filesystem of Linux without symbolic
links, on which the process may read and write everywhere and which has room.  A path
is looked up as the kernel does, element by element, from the root or from one fixed
working directory, and every element on the way must be an existing directory.  A `..`
in front of a relative path is kept as an element (the model does not know the name of
the working directory inside its parent). -/

/-- What a path names: a directory, or a file and its contents. -/
inductive Node where
  | dir
  | file (content : Bytes)
deriving DecidableEq, Repr

/-- A filesystem: the node at each cleaned path, if there is one. -/
abbrev FS := PathKey → Option Node

/-- The filesystem with the node at `k` replaced. -/
def FS.set (fs : FS) (k : PathKey) (n : Option Node) : FS :=
  fun k' => if k' = k then n else fs k'

/-- The errors of the system calls that the model can return. -/
inductive Errno where
  | EINVAL
  | ENOENT
  | ENOTDIR
  | EISDIR
  | EEXIST
  | ENAMETOOLONG
deriving DecidableEq, Repr

/-- The text of an error of a system call. -/
def Errno.text : Errno → Str
  | .EINVAL => "invalid argument".toList
  | .ENOENT => "no such file or directory".toList
  | .ENOTDIR => "not a directory".toList
  | .EISDIR => "is a directory".toList
  | .EEXIST => "file exists".toList
  | .ENAMETOOLONG => "file name too long".toList

/-- The text of an `*os.PathError`: the operation, the path as it was given, the error. -/
def pathError (op path : Str) (e : Errno) : Str :=
  op ++ " ".toList ++ path ++ ": ".toList ++ e.text

/-- The longest name of a file or directory, in bytes (`NAME_MAX` of Linux). -/
def nameMax : Nat := 255

/-- The length a path must stay below, in bytes (`PATH_MAX` of Linux, which counts the
final zero byte). -/
def pathMax : Nat := 4096

/-- The length of a text in bytes, in UTF-8. -/
def utf8Len (s : Str) : Nat :=
  s.foldr (fun c n => c.utf8Size + n) 0

/-- What is refused before a path is looked up: a path with a zero byte (by Go, with
`EINVAL`), the empty path, and a path that is too long. -/
def checkPath (path : Str) : Except Errno Unit :=
  if Char.ofNat 0 ∈ path then .error .EINVAL
  else if path = [] then .error .ENOENT
  else if pathMax ≤ utf8Len path then .error .ENAMETOOLONG
  else .ok ()

/-- Whether a path starts at the root. -/
def isRooted (path : Str) : Bool :=
  path.head? == some '/'

/-- One step of a lookup: from the node at `cur`, which must be a directory, the element
`c` leads where it leads `filepath.Clean`; a name that is too long is refused. -/
def lookupStep (fs : FS) (rooted : Bool) (cur : List Str) (c : Str) :
    Except Errno (List Str) :=
  match fs ⟨rooted, cur⟩ with
  | none => .error .ENOENT
  | some (Node.file _) => .error .ENOTDIR
  | some Node.dir =>
    if c ≠ [] ∧ c ≠ ['.'] ∧ c ≠ dotdot ∧ nameMax < utf8Len c then .error .ENAMETOOLONG
    else .ok (cleanStep rooted cur c)

/-- The lookup of the elements `cs`, one after the other, from the node at `cur`. -/
def walk (fs : FS) (rooted : Bool) : List Str → List Str → Except Errno (List Str)
  | [], cur => .ok cur
  | c :: cs, cur =>
    match lookupStep fs rooted cur c with
    | .error e => .error e
    | .ok cur1 => walk fs rooted cs cur1

/-- The lookup of a path: the existing node it leads to. -/
def namei (fs : FS) (path : Str) : Except Errno PathKey :=
  match checkPath path with
  | .error e => .error e
  | .ok _ =>
    match walk fs (isRooted path) (splitSlash path) [] with
    | .error e => .error e
    | .ok cur =>
      match fs ⟨isRooted path, cur⟩ with
      | none => .error .ENOENT
      | some _ => .ok ⟨isRooted path, cur⟩

/-- The elements of a path before its last one, and the last one, the slashes at the
end of the path set aside; no last element for a path of slashes only. -/
def splitLast (path : Str) : List Str × Option Str :=
  match (splitSlash path).reverse.dropWhile (fun c => c == []) with
  | [] => ([], none)
  | last :: initRev => (initRev.reverse, some last)

/-- `os.Stat(path)`: the node at the path (`none` for the error). -/
def os.Stat (fs : FS) (path : Str) : Option Node :=
  match namei fs path with
  | .error _ => none
  | .ok k => fs k

/-- The system call `mkdir(path)`: the parent must be an existing directory and the
path must not exist. -/
def os.Mkdir (fs : FS) (path : Str) : Except Errno FS :=
  match checkPath path with
  | .error e => .error e
  | .ok _ =>
    match splitLast path with
    | (_, none) => .error .EEXIST
    | (init, some last) =>
      match walk fs (isRooted path) init [] with
      | .error e => .error e
      | .ok cur =>
        match lookupStep fs (isRooted path) cur last with
        | .error e => .error e
        | .ok key =>
          if last = ['.'] ∨ last = dotdot then .error .EEXIST
          else if fs ⟨isRooted path, key⟩ ≠ none then .error .EEXIST
          else .ok (fs.set ⟨isRooted path, key⟩ (some Node.dir))

/-- The parent that `os.MkdirAll` makes first: the path without its last element and
the slash in front of it; none when nothing is left. -/
def mkdirAllParent (path : Str) : Option Str :=
  let r := (path.reverse.dropWhile (fun c => c == '/')).dropWhile (fun c => c != '/')
  if 1 < r.length then some r.tail.reverse else none

/-- The recursion of `os.MkdirAll`: a directory that exists is left alone, a file in
the way is an error; otherwise the parent is made, then `mkdir` is called, and a
failure of `mkdir` is no error when the path is a directory after all.  The parent is
shorter than the path, so the fuel, one more than the length of the path, is never
used up. -/
def mkdirAllFuel : Nat → FS → Str → Except Str FS
  | 0, _, path => .error (pathError "mkdir".toList path .ENAMETOOLONG)
  | fuel + 1, fs, path =>
    match os.Stat fs path with
    | some Node.dir => .ok fs
    | some (Node.file _) => .error (pathError "mkdir".toList path .ENOTDIR)
    | none =>
      match (match mkdirAllParent path with
             | some parent => mkdirAllFuel fuel fs parent
             | none => .ok fs) with
      | .error err => .error err
      | .ok fs1 =>
        match os.Mkdir fs1 path with
        | .ok fs2 => .ok fs2
        | .error e =>
          match os.Stat fs1 path with
          | some Node.dir => .ok fs1
          | _ => .error (pathError "mkdir".toList path e)

/-- `os.MkdirAll(path, 0755)`. -/
def os.MkdirAll (fs : FS) (path : Str) : Except Str FS :=
  mkdirAllFuel (path.length + 1) fs path

/-- The test `endsWithDot` of `os.RemoveAll`: the path is `.` or ends in `/.`. -/
def endsWithDot (path : Str) : Bool :=
  match path.reverse with
  | [c] => c == '.'
  | c :: d :: _ => c == '.' && d == '/'
  | [] => false

/-- `os.RemoveAll(path)`: the node at the path goes, with all that is below it; a path
that ends in a dot is refused, the empty path and a path that leads nowhere are left
alone.  (Exact for a path whose last element is a name, which is what the program
passes unless the link ends in `.` or `..`.) -/
def os.RemoveAll (fs : FS) (path : Str) : Except Str FS :=
  if path = [] then .ok fs
  else if endsWithDot path then .error (pathError "RemoveAll".toList path .EINVAL)
  else
    match namei fs path with
    | .error .ENOENT => .ok fs
    | .error e => .error (pathError "unlinkat".toList path e)
    | .ok key =>
      .ok (fun k => if k.rooted = key.rooted ∧ key.elems <:+ k.elems then none else fs k)

/-- `os.Create(path)`: a new or emptied file at the path, whose parent must be an
existing directory and which must not be a directory itself. -/
def os.Create (fs : FS) (path : Str) : Except Str FS :=
  match checkPath path with
  | .error e => .error (pathError "open".toList path e)
  | .ok _ =>
    match splitLast path with
    | (_, none) => .error (pathError "open".toList path .EISDIR)
    | (init, some last) =>
      match walk fs (isRooted path) init [] with
      | .error e => .error (pathError "open".toList path e)
      | .ok cur =>
        match lookupStep fs (isRooted path) cur last with
        | .error e => .error (pathError "open".toList path e)
        | .ok key =>
          if last = ['.'] ∨ last = dotdot ∨ path.getLast? = some '/' then
            .error (pathError "open".toList path .EISDIR)
          else
            match fs ⟨isRooted path, key⟩ with
            | some Node.dir => .error (pathError "open".toList path .EISDIR)
            | _ => .ok (fs.set ⟨isRooted path, key⟩ (some (Node.file [])))

/-- `io.Copy(file, body)` into the file that `os.Create(path)` has opened: the file
holds the bytes. -/
def io.Copy (fs : FS) (path : Str) (body : Bytes) : FS :=
  fs.set (pathKey path) (some (Node.file body))

/-! ## The remote side -/

/-- What the listing endpoint does with one request. -/
inductive ApiResponse where
  /-- `http.NewRequest` fails. -/
  | newRequestFailed (err : Str)
  /-- `client.Do` fails. -/
  | doFailed (err : Str)
  /-- A response: its status, its body, and what decoding the body as JSON gives. -/
  | response (statusCode : Nat) (body : Str) (decoded : Except Str (List GitHubContent))

/-- What the raw-content endpoint does with one request. -/
inductive FileResponse where
  /-- `http.NewRequest` fails. -/
  | newRequestFailed (err : Str)
  /-- `client.Do` fails. -/
  | doFailed (err : Str)
  /-- A response: its status, the bytes of the body that arrive, and the error that
  ends the copy early, if there is one. -/
  | response (statusCode : Nat) (body : Bytes) (copyErr : Option Str)

/-- The remote side: the answer to a GET of each URL, from the listing endpoint and
from the raw-content endpoint. -/
structure Remote where
  api : Str → ApiResponse
  raw : Str → FileResponse

/-! ## The state of a run -/

/-- The calls a run makes, with their errors. -/
inductive Event where
  /-- `getDirectoryContents(repoInfo, remotePath)`. -/
  | listing (remotePath : Str) (err : Option Str)
  /-- `os.MkdirAll(localPath, 0755)`. -/
  | mkdirAll (localPath : Str) (err : Option Str)
  /-- `downloadFile(url, localPath)` for the entry at `remotePath`. -/
  | fetch (remotePath url localPath : Str) (err : Option Str)
  /-- `os.RemoveAll(localPath)`. -/
  | removeAll (localPath : Str) (err : Option Str)
deriving DecidableEq, Repr

/-- The world a run acts on: the local filesystem, the text still to be read from
standard input, what was written to standard output and standard error, and the calls
made so far. -/
structure World where
  fs : FS
  stdin : Str
  stdout : List Str
  stderr : List Str
  trace : List Event

/-- Writing to standard output. -/
def World.print (w : World) (s : Str) : World :=
  { w with stdout := w.stdout ++ [s] }

/-- Writing to standard error. -/
def World.eprint (w : World) (s : Str) : World :=
  { w with stderr := w.stderr ++ [s] }

/-- Recording a call. -/
def World.log (w : World) (e : Event) : World :=
  { w with trace := w.trace ++ [e] }

/-- The result of a function that returns an `error`, run with fuel. -/
inductive Result where
  | success
  | failure (err : Str)
  | outOfFuel
deriving DecidableEq, Repr

/-! ## `getDirectoryContents` and `downloadFile` (`main.go` lines 210-280) -/

/-- The URL `getDirectoryContents` asks for. -/
def contentsURL (repoInfo : RepoInfo) (path : Str) : Str :=
  "https://api.github.com/repos/".toList ++ repoInfo.Owner ++ "/".toList ++ repoInfo.Repo
    ++ "/contents/".toList ++ path ++ "?ref=".toList ++ repoInfo.Branch

/-- `getDirectoryContents` (`main.go` lines 210-246). -/
def getDirectoryContents (env : Remote) (repoInfo : RepoInfo) (path : Str) :
    Except Str (List GitHubContent) :=
  match env.api (contentsURL repoInfo path) with
  | .newRequestFailed err => .error ("failed to create request: ".toList ++ err)
  | .doFailed err => .error ("failed to make request: ".toList ++ err)
  | .response statusCode body decoded =>
    if statusCode ≠ 200 then
      if statusCode = 404 then .error "repository, branch, or path not found".toList
      else if statusCode = 403 then .error "rate limit exceeded or repository is private".toList
      else .error ("GitHub API returned status ".toList ++ (Nat.repr statusCode).toList
        ++ ": ".toList ++ body)
    else
      match decoded with
      | .error err => .error ("failed to parse JSON response: ".toList ++ err)
      | .ok contents => .ok contents

/-- `downloadFile` (`main.go` lines 248-280), on the filesystem. -/
def downloadFile (env : Remote) (downloadURL localPath : Str) (fs : FS) :
    FS × Except Str Unit :=
  match env.raw downloadURL with
  | .newRequestFailed err => (fs, .error ("failed to create request: ".toList ++ err))
  | .doFailed err => (fs, .error ("failed to download file: ".toList ++ err))
  | .response statusCode body copyErr =>
    if statusCode ≠ 200 then
      (fs, .error ("failed to download file, status: ".toList ++ (Nat.repr statusCode).toList))
    else
      match os.Create fs localPath with
      | .error err => (fs, .error ("failed to create local file: ".toList ++ err))
      | .ok fs1 =>
        match copyErr with
        | some err =>
          (io.Copy fs1 localPath body, .error ("failed to write file content: ".toList ++ err))
        | none => (io.Copy fs1 localPath body, .ok ())

/-! ## `downloadDirectory` (`main.go` lines 173-208) -/

/-- The loop `for _, item := range contents` of `downloadDirectory`; `recurse` is the
recursive call of `downloadDirectory`. -/
def downloadItems (env : Remote) (recurse : Str → Str → World → World × Result)
    (localPath : Str) : List GitHubContent → World → World × Result
  | [], w => (w, .success)
  | item :: rest, w =>
    let itemLocalPath := filepath.Join localPath item.Name
    if item.Type_ = "dir".toList then
      match os.MkdirAll w.fs itemLocalPath with
      | .error err =>
        (w.log (.mkdirAll itemLocalPath (some err)),
          .failure ("failed to create directory ".toList ++ itemLocalPath ++ ": ".toList ++ err))
      | .ok fs1 =>
        let w1 := ({ w with fs := fs1 }.log (.mkdirAll itemLocalPath none)).print
          ("📁 ".toList ++ item.Path ++ "/\n".toList)
        match recurse item.Path itemLocalPath w1 with
        | (w2, .success) => downloadItems env recurse localPath rest w2
        | (w2, r) => (w2, r)
    else if item.Type_ = "file".toList then
      let w1 := w.print ("📄 ".toList ++ item.Name ++ "\n".toList)
      match downloadFile env item.DownloadURL itemLocalPath w1.fs with
      | (fs2, .error err) =>
        ({ w1 with fs := fs2 }.log (.fetch item.Path item.DownloadURL itemLocalPath (some err)),
          .failure ("failed to download file ".toList ++ item.Path ++ ": ".toList ++ err))
      | (fs2, .ok _) =>
        downloadItems env recurse localPath rest
          ({ w1 with fs := fs2 }.log (.fetch item.Path item.DownloadURL itemLocalPath none))
    else downloadItems env recurse localPath rest w

/-- `downloadDirectory` (`main.go` lines 173-208).  The recursion of the Go function
has no bound of its own; here each level of it takes one unit of `fuel`. -/
def downloadDirectory : Nat → Remote → RepoInfo → Str → Str → World → World × Result
  | 0, _, _, _, _, w => (w, .outOfFuel)
  | fuel + 1, env, repoInfo, remotePath, localPath, w =>
    match getDirectoryContents env repoInfo remotePath with
    | .error err =>
      (w.log (.listing remotePath (some err)),
        .failure ("failed to get directory contents for ".toList ++ remotePath ++ ": ".toList
          ++ err))
    | .ok contents =>
      if contents.length = 0 then
        ((w.log (.listing remotePath none)).print
            ("Warning: Directory '".toList ++ remotePath
              ++ "' is empty or doesn't exist\n".toList),
          .success)
      else
        downloadItems env (downloadDirectory fuel env repoInfo) localPath contents
          (w.log (.listing remotePath none))

/-! ## `downloadSubdirectory` (`main.go` lines 140-171) -/

/-- The last two steps of `downloadSubdirectory` (lines 166-170): make the local root
folder and mirror into it. -/
def mirrorInto (fuel : Nat) (env : Remote) (repoInfo : RepoInfo) (outputPath : Str)
    (w : World) : World × Result :=
  match os.MkdirAll w.fs outputPath with
  | .error err =>
    (w.log (.mkdirAll outputPath (some err)),
      .failure ("failed to create output directory: ".toList ++ err))
  | .ok fs1 =>
    downloadDirectory fuel env repoInfo repoInfo.Path outputPath
      ({ w with fs := fs1 }.log (.mkdirAll outputPath none))

/-- `downloadSubdirectory` (`main.go` lines 140-171). -/
def downloadSubdirectory (fuel : Nat) (env : Remote) (repoInfo : RepoInfo) (outputDir : Str)
    (w : World) : World × Result :=
  match os.MkdirAll w.fs outputDir with
  | .error err =>
    (w.log (.mkdirAll outputDir (some err)),
      .failure ("failed to create output directory: ".toList ++ err))
  | .ok fs1 =>
    let w1 := { w with fs := fs1 }.log (.mkdirAll outputDir none)
    let folderName := filepath.Base repoInfo.Path
    let outputPath := filepath.Join outputDir folderName
    match os.Stat w1.fs outputPath with
    | some _ =>
      let w2 := w1.print ("Directory '".toList ++ outputPath
        ++ "' already exists. Do you want to overwrite it? (y/N): ".toList)
      let answer := (readString '\n' w2.stdin).1
      let w3 := { w2 with stdin := (readString '\n' w2.stdin).2 }
      let answer := strings.TrimSpace (strings.ToLower answer)
      if answer ≠ "y".toList ∧ answer ≠ "yes".toList then
        (w3, .failure "aborted successfully".toList)
      else
        match os.RemoveAll w3.fs outputPath with
        | .error err =>
          (w3.log (.removeAll outputPath (some err)),
            .failure ("failed to remove directory: ".toList ++ err ++ " ".toList))
        | .ok fs4 =>
          mirrorInto fuel env repoInfo outputPath
            (({ w3 with fs := fs4 }.log (.removeAll outputPath none)).print
              "Directory removed.\n".toList)
    | none => mirrorInto fuel env repoInfo outputPath w1

/-! ## `main` (`main.go` lines 31-102) -/

/-- The text `showUsage` writes to standard error (`main.go` lines 104-119). -/
def showUsage (prog : Str) : List Str :=
  ["Usage: ".toList ++ prog ++ " [options] <github-repo-link>\n\n".toList,
   "Download a specific folder from a GitHub repository.\n\n".toList,
   "Options:\n".toList,
   "  -d, --dir <path>    Download to specific directory (default: current directory)\n\n".toList,
   "Examples:\n".toList,
   "  ".toList ++ prog ++ " <github-repo-link>\n".toList,
   "  ".toList ++ prog ++ " -d ./downloads <github-repo-link>\n".toList,
   "  ".toList ++ prog ++ " --dir=/home/user/projects <github-repo-link>\n".toList,
   "\nThe tool will create a folder with the same name as the target directory.\n".toList,
   "Note: Only works with public repositories.\n".toList]

/-- The argument loop of `main` (lines 42-67) from the argument at `i` on, with the
values of `outputDir` and `repoLink` so far; the error is the text written to standard
error before `os.Exit(1)`. -/
def argLoop (prog : Str) : List Str → Str → Str → Except (List Str) (Str × Str)
  | [], outputDir, repoLink => .ok (outputDir, repoLink)
  | arg :: rest, outputDir, repoLink =>
    if arg = "-d".toList ∨ arg = "--dir".toList then
      match rest with
      | [] => .error ["Error: ".toList ++ arg ++ " flag requires a directory path\n".toList]
      | dir :: rest1 => argLoop prog rest1 dir repoLink
    else if strings.HasPrefix arg "-d=".toList then
      argLoop prog rest (arg.drop 3) repoLink
    else if strings.HasPrefix arg "--dir=".toList then
      argLoop prog rest (arg.drop 6) repoLink
    else if strings.HasPrefix arg "https://github.com/".toList then
      argLoop prog rest outputDir arg
    else
      .error (("Error: Unknown argument: ".toList ++ arg ++ "\n".toList) :: showUsage prog)

/-- Lines 35-77 of `main`: from the arguments to the output directory and the link. -/
def parseArgs (prog : Str) (args : List Str) : Except (List Str) (Str × Str) :=
  if args.length < 1 ∨ args.length > 3 then .error (showUsage prog)
  else
    match argLoop prog args [] [] with
    | .error out => .error out
    | .ok (outputDir, repoLink) =>
      if repoLink = [] then
        .error ("Error: GitHub repository link is required\n".toList :: showUsage prog)
      else .ok (if outputDir = [] then ".".toList else outputDir, repoLink)

/-- `main` (`main.go` lines 31-102): the world after the run, and the exit status
(`none` when the fuel runs out). -/
def main (fuel : Nat) (env : Remote) (prog : Str) (args : List Str) (w : World) :
    World × Option Nat :=
  match parseArgs prog args with
  | .error out => ({ w with stderr := w.stderr ++ out }, some 1)
  | .ok (outputDir, repoLink) =>
    match parseGitHubLink repoLink with
    | .error err =>
      (w.eprint ("Error parsing repository link: ".toList ++ err ++ "\n".toList), some 1)
    | .ok repoInfo =>
      let w1 := ((w.print ("Repository: ".toList ++ repoInfo.Owner ++ "/".toList
          ++ repoInfo.Repo ++ "\n".toList)).print
          ("Branch: ".toList ++ repoInfo.Branch ++ "\n".toList)).print
          ("Path: ".toList ++ repoInfo.Path ++ "\n".toList)
      let w2 := if outputDir ≠ ".".toList then
          w1.print ("Output Directory: ".toList ++ outputDir ++ "\n".toList) else w1
      let w3 := w2.print "Downloading...\n\n".toList
      match downloadSubdirectory fuel env repoInfo outputDir w3 with
      | (w4, .failure err) => (w4.eprint ("Error: ".toList ++ err ++ "\n".toList), some 1)
      | (w4, .outOfFuel) => (w4, none)
      | (w4, .success) =>
        let folderName := filepath.Base repoInfo.Path
        let finalPath := filepath.Join outputDir folderName
        ((w4.print "\n✓ Download completed successfully!\n".toList).print
          ("Files saved to: ".toList ++ finalPath ++ "\n".toList), some 0)

/-! ## Notions used in the statements -/

/-- An ordinary name of a file or a folder: one path element, not empty, not `.` and
not `..`. -/
def Ordinary (name : Str) : Prop :=
  name ≠ [] ∧ '/' ∉ name ∧ name ≠ ['.'] ∧ name ≠ dotdot

instance (name : Str) : Decidable (Ordinary name) := by
  unfold Ordinary; infer_instance

/-- The path of the entry `name` of the directory at `k`. -/
def PathKey.child (k : PathKey) (name : Str) : PathKey :=
  ⟨k.rooted, name :: k.elems⟩

/-- The path reached from `k` by the names `rel`, the outermost first. -/
def PathKey.extend (k : PathKey) (rel : List Str) : PathKey :=
  ⟨k.rooted, rel.reverse ++ k.elems⟩

/-- The cleaned paths that `filepath.Clean` can return: no element is empty, holds a
slash or is `.`, and `..` stands only in front of a path that is not rooted. -/
def NormalElems (rooted : Bool) : List Str → Prop
  | [] => True
  | e :: up => NormalElems rooted up ∧ e ≠ [] ∧ '/' ∉ e ∧ e ≠ ['.'] ∧
      (e = dotdot → rooted = false ∧ ∀ x ∈ up, x = dotdot)

/-- The node at `elems` can be reached by a lookup: every directory above it exists, and
every name on the way fits the limit of a name. -/
def Reachable (fs : FS) (rooted : Bool) : List Str → Prop
  | [] => True
  | e :: up => fs ⟨rooted, up⟩ = some Node.dir ∧ (e ≠ dotdot → utf8Len e ≤ nameMax) ∧
      Reachable fs rooted up

/-- The error `downloadDirectory` returns when the call `e` has failed: the error of the
call, wrapped once with the path of the call. -/
def Event.wrapped : Event → Option Str
  | .listing remotePath (some err) =>
    some ("failed to get directory contents for ".toList ++ remotePath ++ ": ".toList ++ err)
  | .fetch remotePath _ _ (some err) =>
    some ("failed to download file ".toList ++ remotePath ++ ": ".toList ++ err)
  | .mkdirAll localPath (some err) =>
    some ("failed to create directory ".toList ++ localPath ++ ": ".toList ++ err)
  | _ => none

/-- A listing call or a fetch call that has failed. -/
def Event.FailedCall : Event → Prop
  | .listing _ (some _) => True
  | .fetch _ _ _ (some _) => True
  | _ => False

instance (e : Event) : Decidable e.FailedCall := by
  cases e with
  | listing p err => cases err <;> (unfold Event.FailedCall; infer_instance)
  | mkdirAll p err => unfold Event.FailedCall; infer_instance
  | fetch p u l err => cases err <;> (unfold Event.FailedCall; infer_instance)
  | removeAll p err => unfold Event.FailedCall; infer_instance

/-- How the calls of a run and its result go together: a run that returns an error has
made the failing call last, with no failed call before it, and returns the wrapped error
of that call; any other run has made no failed call. -/
def AbortsAtFirstFailure (calls : List Event) : Result → Prop
  | .failure msg => ∃ pre e, calls = pre ++ [e] ∧ e.wrapped = some msg ∧
      ∀ x ∈ pre, x.wrapped = none
  | _ => ∀ x ∈ calls, x.wrapped = none

/-! ## Concrete remotes and worlds, for the examples -/

/-- A filesystem in which the listed paths are directories and nothing else exists. -/
def FS.ofDirs (dirs : List Str) : FS :=
  fun k => if k ∈ dirs.map pathKey then some Node.dir else none

/-- A world at the start of a run: nothing written yet, no call made yet. -/
def World.initial (fs : FS) (stdin : Str) : World :=
  ⟨fs, stdin, [], [], []⟩

/-- The location named by `https://github.com/acme/widgets/tree/main/src/utils`. -/
def acmeUtils : RepoInfo :=
  ⟨"acme".toList, "widgets".toList, "main".toList, "src/utils".toList⟩

/-- The remote of the end-to-end example of the specification: `src/utils` holds the
file `a.go` and the folder `sub`, which holds the file `b.go`. -/
def acme : Remote where
  api := fun url =>
    if url = "https://api.github.com/repos/acme/widgets/contents/src/utils?ref=main".toList then
      .response 200 [] (.ok
        [⟨"a.go".toList, "src/utils/a.go".toList, "file".toList, "raw/a.go".toList, []⟩,
         ⟨"sub".toList, "src/utils/sub".toList, "dir".toList, [], []⟩])
    else if url
        = "https://api.github.com/repos/acme/widgets/contents/src/utils/sub?ref=main".toList then
      .response 200 [] (.ok
        [⟨"b.go".toList, "src/utils/sub/b.go".toList, "file".toList, "raw/b.go".toList, []⟩])
    else .response 404 [] (.error [])
  raw := fun url =>
    if url = "raw/a.go".toList then .response 200 [112, 97] none
    else if url = "raw/b.go".toList then .response 200 [112, 98, 10] none
    else .response 404 [] none

/-- A remote on which a run fails part of the way: `src/utils` holds the file `a.go`, the
folder `sub` and the file `z.go`, and the listing of `sub` is answered with status 404. -/
def acmeBroken : Remote where
  api := fun url =>
    if url = "https://api.github.com/repos/acme/widgets/contents/src/utils?ref=main".toList then
      .response 200 [] (.ok
        [⟨"a.go".toList, "src/utils/a.go".toList, "file".toList, "raw/a.go".toList, []⟩,
         ⟨"sub".toList, "src/utils/sub".toList, "dir".toList, [], []⟩,
         ⟨"z.go".toList, "src/utils/z.go".toList, "file".toList, "raw/z.go".toList, []⟩])
    else .response 404 [] (.error [])
  raw := fun url =>
    if url = "raw/a.go".toList then .response 200 [112, 97] none
    else .doFailed "timeout".toList

/-- A remote whose every listing is empty. -/
def emptyRemote : Remote where
  api := fun _ => .response 200 "[]".toList (.ok [])
  raw := fun _ => .response 404 [] none

/-- A remote whose one listing, of `d`, holds two files with different names, `a` and
`./a`. -/
def twoNames : Remote where
  api := fun url =>
    if url = "https://api.github.com/repos/o/r/contents/d?ref=b".toList then
      .response 200 [] (.ok
        [⟨"a".toList, "d/a".toList, "file".toList, "raw/1".toList, []⟩,
         ⟨"./a".toList, "d/./a".toList, "file".toList, "raw/2".toList, []⟩])
    else .response 404 [] (.error [])
  raw := fun url =>
    if url = "raw/1".toList then .response 200 [1] none
    else if url = "raw/2".toList then .response 200 [2] none
    else .response 404 [] none

/-- A filesystem with the folders `a` and `a/b` and the file `a/keep.txt`. -/
def fsKeep : FS :=
  fun k =>
    if k = pathKey "a/keep.txt".toList then some (Node.file [107])
    else FS.ofDirs [".".toList, "a".toList, "a/b".toList] k

/-! ## Remote trees, in the words of the specification -/

/-- A finite remote tree below `remotePath`, of depth at most `depth`: the listing of
every directory succeeds, is not empty and holds distinct names, every entry is a file
whose fetch succeeds or a directory of which the same holds. -/
def RemoteTree (env : Remote) (repoInfo : RepoInfo) : Nat → Str → Prop
  | 0, _ => False
  | depth + 1, remotePath =>
    ∃ items, getDirectoryContents env repoInfo remotePath = .ok items ∧ items ≠ [] ∧
      (items.map (fun item => item.Name)).Nodup ∧
      ∀ item ∈ items,
        (item.Type_ = "file".toList ∧ ∃ body, env.raw item.DownloadURL = .response 200 body none) ∨
        (item.Type_ = "dir".toList ∧ RemoteTree env repoInfo depth item.Path)

/-- Every entry of the tree below `remotePath`, mirrored into `localPath`, has a place
that the local filesystem accepts: its name is an ordinary name of at most `nameMax`
bytes, and its local path holds no zero byte and is shorter than `pathMax`. -/
def LocalNamesOK (env : Remote) (repoInfo : RepoInfo) : Nat → Str → Str → Prop
  | 0, _, _ => True
  | depth + 1, remotePath, localPath =>
    ∀ items, getDirectoryContents env repoInfo remotePath = .ok items →
      ∀ item ∈ items, Ordinary item.Name ∧ utf8Len item.Name ≤ nameMax ∧
        checkPath (filepath.Join localPath item.Name) = .ok () ∧
        (item.Type_ = "dir".toList →
          LocalNamesOK env repoInfo depth item.Path (filepath.Join localPath item.Name))

/-- The remote files among `items`, each with its path relative to the directory of the
listing (the names on the way to it, the outermost first) and the payload served for its
download locator; `files` gives the remote files below a sub-directory. -/
def remoteFilesOf (env : Remote) (files : Str → List (List Str × Bytes)) :
    List GitHubContent → List (List Str × Bytes)
  | [] => []
  | item :: rest =>
    (if item.Type_ = "dir".toList then
      (files item.Path).map (fun f => (item.Name :: f.1, f.2))
    else if item.Type_ = "file".toList then
      match env.raw item.DownloadURL with
      | .response statusCode body copyErr =>
        if statusCode = 200 ∧ copyErr = none then [([item.Name], body)] else []
      | _ => []
    else []) ++ remoteFilesOf env files rest

/-- The remote files of the tree below `remotePath`, to the depth `depth`: relative path
and payload. -/
def remoteFiles (env : Remote) (repoInfo : RepoInfo) : Nat → Str → List (List Str × Bytes)
  | 0, _ => []
  | depth + 1, remotePath =>
    match getDirectoryContents env repoInfo remotePath with
    | .error _ => []
    | .ok items => remoteFilesOf env (remoteFiles env repoInfo depth) items

/-- What a run that mirrors the tree below `remotePath` into the directory at `K` leaves:
success, no change outside what is below `K`, and below `K` a file for each remote file,
at its relative path and with its payload, and no other file. -/
def MirrorsInto (env : Remote) (repoInfo : RepoInfo) (depth : Nat) (remotePath : Str)
    (K : PathKey) (before : FS) (r : World × Result) : Prop :=
  r.2 = .success ∧
  (∀ k, (∀ rel, rel ≠ [] → k ≠ K.extend rel) → r.1.fs k = before k) ∧
  (∀ rel body, rel ≠ [] →
    (r.1.fs (K.extend rel) = some (Node.file body) ↔
      (rel, body) ∈ remoteFiles env repoInfo depth remotePath))


/-! ## Lemmas on the string helpers -/

theorem dropPrefix?_append (p s : Str) : dropPrefix? p (p ++ s) = some s := by
  induction p with
  | nil => rfl
  | cons c p ih => simp [dropPrefix?, ih]

theorem dropPrefix?_eq_some {p s r : Str} (h : dropPrefix? p s = some r) : s = p ++ r := by
  induction p generalizing s with
  | nil => simp [dropPrefix?] at h; simp [h]
  | cons c p ih =>
    cases s with
    | nil => simp [dropPrefix?] at h
    | cons d s =>
      simp only [dropPrefix?] at h
      split at h
      · rename_i hd
        rw [hd, ih h]; rfl
      · simp at h

theorem strings.HasPrefix_append (p s : Str) : strings.HasPrefix (p ++ s) p = true := by
  induction p with
  | nil => cases s <;> rfl
  | cons c p ih => simp [strings.HasPrefix, ih]

theorem strings.HasPrefix_append_right {s p : Str} (t : Str) (h : strings.HasPrefix s p = true) :
    strings.HasPrefix (s ++ t) p = true := by
  induction p generalizing s with
  | nil => cases s <;> cases t <;> rfl
  | cons c p ih =>
    cases s with
    | nil => simp [strings.HasPrefix] at h
    | cons d s =>
      simp only [strings.HasPrefix, Bool.and_eq_true, List.cons_append] at h ⊢
      exact ⟨h.1, ih h.2⟩

/-- What `strings.TrimSuffix(s, "/")` can be: `s`, or `s` less one final slash. -/
theorem strings.TrimSuffix_slash_cases (s : Str) :
    s = strings.TrimSuffix s ['/'] ∨ s = strings.TrimSuffix s ['/'] ++ ['/'] := by
  unfold strings.TrimSuffix
  split
  · rename_i h
    right
    rcases List.eq_nil_or_concat s with rfl | ⟨l, c, rfl⟩
    · simp [strings.HasSuffix, strings.HasPrefix] at h
    · simp [strings.HasSuffix, strings.HasPrefix] at h
      simp [h]
  · left; rfl

theorem strings.TrimSuffix_slash_of_getLast? {s : Str} (h : s.getLast? ≠ some '/') :
    strings.TrimSuffix s ['/'] = s := by
  unfold strings.TrimSuffix
  split
  · rename_i h'
    rcases List.eq_nil_or_concat s with rfl | ⟨l, c, rfl⟩
    · rfl
    · simp [strings.HasSuffix, strings.HasPrefix] at h'
      simp [h'] at h
  · rfl

theorem strings.TrimSuffix_slash_concat (s : Str) : strings.TrimSuffix (s ++ ['/']) ['/'] = s := by
  simp [strings.TrimSuffix, strings.HasSuffix, strings.HasPrefix]

/-! ## Lemmas on the pieces of the link pattern -/

theorem spanNoSlash_append {a : Str} (rest : Str) (h : '/' ∉ a) :
    spanNoSlash (a ++ '/' :: rest) = (a, '/' :: rest) := by
  induction a with
  | nil => simp [spanNoSlash]
  | cons c a ih =>
    simp only [List.mem_cons, not_or] at h
    have hc : c ≠ '/' := fun e => h.1 e.symm
    simp [spanNoSlash, hc, ih h.2]

theorem spanNoSlash_noSlash {a : Str} (h : '/' ∉ a) : spanNoSlash a = (a, []) := by
  induction a with
  | nil => rfl
  | cons c a ih =>
    simp only [List.mem_cons, not_or] at h
    have hc : c ≠ '/' := fun e => h.1 e.symm
    simp [spanNoSlash, hc, ih h.2]

theorem spanNoSlash_spec (s : Str) :
    s = (spanNoSlash s).1 ++ (spanNoSlash s).2 ∧ '/' ∉ (spanNoSlash s).1 ∧
      ((spanNoSlash s).2 = [] ∨ ∃ r, (spanNoSlash s).2 = '/' :: r) := by
  induction s with
  | nil => simp [spanNoSlash]
  | cons c s ih =>
    by_cases hc : c = '/'
    · subst hc; simp [spanNoSlash]
    · obtain ⟨h1, h2, h3⟩ := ih
      have hc' : ¬ '/' = c := fun e => hc e.symm
      simp only [spanNoSlash, hc, if_false, List.cons_append, List.mem_cons, not_or]
      exact ⟨by rw [← h1], ⟨hc', h2⟩, h3⟩

/-- A text splits in one way only into a slash-free part, a slash and a rest. -/
theorem slashFree_split_unique {a b x y : Str} (ha : '/' ∉ a) (hb : '/' ∉ b)
    (h : a ++ '/' :: x = b ++ '/' :: y) : a = b ∧ x = y := by
  have h1 := spanNoSlash_append x ha
  rw [h, spanNoSlash_append y hb] at h1
  simp only [Prod.mk.injEq, List.cons.injEq, true_and] at h1
  exact ⟨h1.1.symm, h1.2.symm⟩

theorem segment_append {a : Str} (rest : Str) (hne : a ≠ []) (h : '/' ∉ a) :
    segment (a ++ '/' :: rest) = some (a, rest) := by
  unfold segment
  rw [spanNoSlash_append rest h]
  cases a with
  | nil => exact absurd rfl hne
  | cons c a => simp

theorem segment_eq_some {s a rest : Str} (h : segment s = some (a, rest)) :
    s = a ++ '/' :: rest ∧ a ≠ [] ∧ '/' ∉ a := by
  obtain ⟨h1, h2, _⟩ := spanNoSlash_spec s
  unfold segment at h
  generalize spanNoSlash s = q at h h1 h2
  obtain ⟨u, v⟩ := q
  cases u with
  | nil => simp at h
  | cons c u =>
    cases v with
    | nil => simp at h
    | cons d v =>
      simp only [Option.ite_none_right_eq_some, Option.some.injEq, Prod.mk.injEq] at h
      obtain ⟨hd, hu, hv⟩ := h
      subst hd hu hv
      exact ⟨h1, by simp, h2⟩

theorem treeOrBlob_eq_some {s r : Str} (h : treeOrBlob s = some r) :
    ∃ kind : Str, (kind = "tree".toList ∨ kind = "blob".toList) ∧ s = kind ++ '/' :: r := by
  unfold treeOrBlob at h
  split at h
  · rename_i rest h'
    simp only [Option.some.injEq] at h
    subst h
    exact ⟨"tree".toList, Or.inl rfl, by simpa using dropPrefix?_eq_some h'⟩
  · exact ⟨"blob".toList, Or.inr rfl, by simpa using dropPrefix?_eq_some h⟩

theorem treeOrBlob_append {kind : Str} (r : Str)
    (hk : kind = "tree".toList ∨ kind = "blob".toList) :
    treeOrBlob (kind ++ '/' :: r) = some r := by
  rcases hk with rfl | rfl
  · simp [treeOrBlob, dropPrefix?]
  · simp [treeOrBlob, dropPrefix?]

theorem dotPlusToEnd_iff (s : Str) : dotPlusToEnd s = true ↔ s ≠ [] ∧ '\n' ∉ s := by
  simp only [dotPlusToEnd, Bool.and_eq_true, decide_eq_true_eq, List.all_eq_true, bne_iff_ne,
    ne_eq, and_congr_right_iff]
  intro _
  constructor
  · intro h hm; exact h _ hm rfl
  · intro h c hc e; subst e; exact h hc

/-- The matcher computes the language of the pattern: it returns four groups exactly
when the text is in the language with these captures. -/
theorem matchLink_eq_some_iff (link owner repo branch path : Str) :
    matchLink link = some (owner, repo, branch, path) ↔
      LinkPattern link owner repo branch path := by
  constructor
  · intro h
    unfold matchLink at h
    split at h
    · simp at h
    · rename_i r0 h0
      split at h
      · simp at h
      · rename_i o r1 h1
        split at h
        · simp at h
        · rename_i r r2 h2
          split at h
          · simp at h
          · rename_i r3 h3
            split at h
            · simp at h
            · rename_i b p h4
              split at h
              · rename_i h5
                simp only [Option.some.injEq, Prod.mk.injEq] at h
                obtain ⟨rfl, rfl, rfl, rfl⟩ := h
                obtain ⟨kind, hk, e3⟩ := treeOrBlob_eq_some h3
                obtain ⟨e1, n1, s1⟩ := segment_eq_some h1
                obtain ⟨e2, n2, s2⟩ := segment_eq_some h2
                obtain ⟨e4, n4, s4⟩ := segment_eq_some h4
                obtain ⟨n5, s5⟩ := (dotPlusToEnd_iff _).1 h5
                refine ⟨kind, hk, ?_, n1, s1, n2, s2, n4, s4, n5, s5⟩
                rw [dropPrefix?_eq_some h0, e1, e2, e3, e4]
                simp
              · simp at h
  · rintro ⟨kind, hk, rfl, n1, s1, n2, s2, n4, s4, n5, s5⟩
    unfold matchLink
    have e0 : dropPrefix? "https://github.com/".toList
        ("https://github.com/".toList ++ owner ++ '/' :: repo ++ '/' :: kind
            ++ '/' :: branch ++ '/' :: path)
        = some (owner ++ '/' :: (repo ++ '/' :: (kind ++ '/' :: (branch ++ '/' :: path)))) := by
      have := dropPrefix?_append "https://github.com/".toList
        (owner ++ '/' :: (repo ++ '/' :: (kind ++ '/' :: (branch ++ '/' :: path))))
      simpa using this
    rw [e0]
    simp only [segment_append _ n1 s1, segment_append _ n2 s2, treeOrBlob_append _ hk,
      segment_append _ n4 s4, (dotPlusToEnd_iff path).2 ⟨n5, s5⟩, if_true]

theorem parseGitHubLink_eq_ok_iff (link : Str) (ri : RepoInfo) :
    parseGitHubLink link = .ok ri ↔
      LinkPattern (strings.TrimSuffix link ['/']) ri.Owner ri.Repo ri.Branch ri.Path := by
  rw [← matchLink_eq_some_iff]
  unfold parseGitHubLink findStringSubmatch
  simp only [String.toList]
  cases h : matchLink (strings.TrimSuffix link ['/']) with
  | none => simp
  | some q =>
    obtain ⟨o, r, b, p⟩ := q
    obtain ⟨o', r', b', p'⟩ := ri
    simp [List.getD]

theorem parseGitHubLink_ok_or_error (link : Str) :
    (∃ ri, parseGitHubLink link = .ok ri) ∨ parseGitHubLink link = .error invalidLinkFormat := by
  unfold parseGitHubLink findStringSubmatch
  simp only [String.toList]
  cases h : matchLink (strings.TrimSuffix link ['/']) with
  | none => right; simp
  | some q =>
    obtain ⟨o, r, b, p⟩ := q
    left; simp

/-! ## Link parsing (C1, C2, C3) -/

theorem parseGitHubLink_mkLink {owner repo branch path kind : Str}
    (hwf : WellFormedFields owner repo branch path) (hnl : '\n' ∉ path)
    (hk : kind = "tree".toList ∨ kind = "blob".toList) :
    parseGitHubLink (mkLink owner repo kind branch path) = .ok ⟨owner, repo, branch, path⟩ := by
  obtain ⟨n1, s1, n2, s2, n3, s3, n4, hl⟩ := hwf
  rw [parseGitHubLink_eq_ok_iff]
  have hlast : (mkLink owner repo kind branch path).getLast? ≠ some '/' := by
    have : mkLink owner repo kind branch path =
        ("https://github.com/".toList ++ owner ++ '/' :: repo ++ '/' :: kind ++ '/' :: branch
          ++ ['/']) ++ path := by simp [mkLink]
    rw [this, List.getLast?_append_of_ne_nil _ n4]
    exact hl
  rw [strings.TrimSuffix_slash_of_getLast? hlast]
  exact ⟨kind, hk, rfl, n1, s1, n2, s2, n3, s3, n4, hnl⟩

/-- C1 (as amended): a well-formed link whose path holds no line feed parses to exactly
its four fields, for `tree` and for `blob`; and two such `tree` links with the same
parse are the same link. -/
theorem parseGitHubLink_wellFormed (owner repo branch path kind : Str)
    (hwf : WellFormedFields owner repo branch path) (hnl : '\n' ∉ path)
    (hk : kind = "tree".toList ∨ kind = "blob".toList) :
    parseGitHubLink (mkLink owner repo kind branch path) = .ok ⟨owner, repo, branch, path⟩ ∧
    ∀ owner' repo' branch' path' : Str,
      WellFormedFields owner' repo' branch' path' → '\n' ∉ path' →
      parseGitHubLink (mkLink owner' repo' "tree".toList branch' path')
        = parseGitHubLink (mkLink owner repo "tree".toList branch path) →
      mkLink owner' repo' "tree".toList branch' path'
        = mkLink owner repo "tree".toList branch path := by
  refine ⟨parseGitHubLink_mkLink hwf hnl hk, ?_⟩
  intro owner' repo' branch' path' hwf' hnl' h
  rw [parseGitHubLink_mkLink hwf' hnl' (Or.inl rfl),
    parseGitHubLink_mkLink hwf hnl (Or.inl rfl)] at h
  simp only [Except.ok.injEq, RepoInfo.mk.injEq] at h
  obtain ⟨rfl, rfl, rfl, rfl⟩ := h
  rfl

theorem parseGitHubLink_wellFormed_witness :
    parseGitHubLink (mkLink "acme".toList "widgets".toList "tree".toList "main".toList
        "src/utils".toList)
      = .ok ⟨"acme".toList, "widgets".toList, "main".toList, "src/utils".toList⟩ :=
  (parseGitHubLink_wellFormed "acme".toList "widgets".toList "main".toList "src/utils".toList
    "tree".toList (by decide) (by decide) (Or.inl rfl)).1

/-- C1 as stated fails: owner `o`, repo `r`, branch `b` and the path `a⏎b` (a line feed
inside) meet every condition of the claim, and the link is rejected. -/
theorem parseGitHubLink_lineFeed_rejected :
    WellFormedFields "o".toList "r".toList "b".toList "a\nb".toList ∧
    parseGitHubLink (mkLink "o".toList "r".toList "tree".toList "b".toList "a\nb".toList)
      = .error invalidLinkFormat := by
  decide

/-- C2: a link that does not start with `https://github.com/`, or whose third segment is
neither `tree` nor `blob`, or that stops after the branch (with or without one final
slash), is rejected with the invalid-link-format error. -/
theorem parseGitHubLink_rejects (link : Str)
    (h : strings.HasPrefix link "https://github.com/".toList = false ∨
      (∃ owner repo seg rest : Str, '/' ∉ owner ∧ '/' ∉ repo ∧ '/' ∉ seg ∧
        (rest = [] ∨ ∃ t, rest = '/' :: t) ∧
        seg ≠ "tree".toList ∧ seg ≠ "blob".toList ∧
        link = "https://github.com/".toList ++ owner ++ '/' :: repo ++ '/' :: seg ++ rest) ∨
      (∃ owner repo branch : Str, '/' ∉ owner ∧ '/' ∉ repo ∧ '/' ∉ branch ∧
        (link = "https://github.com/".toList ++ owner ++ '/' :: repo ++ "/tree/".toList ++ branch ∨
         link = "https://github.com/".toList ++ owner ++ '/' :: repo ++ "/tree/".toList ++ branch
                  ++ ['/']))) :
    parseGitHubLink link = .error invalidLinkFormat := by
  rcases parseGitHubLink_ok_or_error link with ⟨ri, hok⟩ | herr
  swap
  · exact herr
  exfalso
  rw [parseGitHubLink_eq_ok_iff] at hok
  obtain ⟨kind, hk, e, n1, s1, n2, s2, n3, s3, n4, -⟩ := hok
  have hks : '/' ∉ kind := by rcases hk with rfl | rfl <;> decide
  -- the link is the trimmed link, followed by nothing or by one slash
  obtain ⟨tl, htl, hlink⟩ : ∃ tl : Str, (tl = [] ∨ tl = ['/']) ∧
      link = "https://github.com/".toList ++ (ri.Owner ++ '/' :: (ri.Repo ++ '/' :: (kind
        ++ '/' :: (ri.Branch ++ '/' :: (ri.Path ++ tl))))) := by
    rcases strings.TrimSuffix_slash_cases link with h' | h'
    · exact ⟨[], Or.inl rfl, by rw [h', e]; simp⟩
    · exact ⟨['/'], Or.inr rfl, by rw [h', e]; simp⟩
  rcases h with h | ⟨owner, repo, seg, rest, so, sr, ss, hrest, ht, hb, hl⟩ |
      ⟨owner, repo, branch, so, sr, sb, hl⟩
  · rw [hlink, strings.HasPrefix_append] at h
    exact Bool.noConfusion h
  · rw [hlink] at hl
    simp only [List.append_assoc, List.cons_append, List.append_cancel_left_eq] at hl
    obtain ⟨e1, hl1⟩ := slashFree_split_unique s1 so hl
    obtain ⟨e2, hl2⟩ := slashFree_split_unique s2 sr hl1
    rcases hrest with rfl | ⟨t, rfl⟩
    · have h2 : '/' ∈ seg ++ [] := by rw [← hl2]; simp
      exact ss (by simpa using h2)
    · obtain ⟨e3, -⟩ := slashFree_split_unique hks ss hl2
      rcases hk with hk | hk
      · exact ht (e3 ▸ hk)
      · exact hb (e3 ▸ hk)
  · have hl' : ∃ tl' : Str, (tl' = [] ∨ tl' = ['/']) ∧
        link = "https://github.com/".toList ++ (owner ++ '/' :: (repo ++ '/' :: ("tree".toList
          ++ '/' :: (branch ++ tl')))) := by
      rcases hl with hl | hl
      · exact ⟨[], Or.inl rfl, by rw [hl]; simp⟩
      · exact ⟨['/'], Or.inr rfl, by rw [hl]; simp⟩
    obtain ⟨tl', htl', hl0⟩ := hl'
    rw [hlink] at hl0
    simp only [List.append_cancel_left_eq] at hl0
    obtain ⟨e1, hl1⟩ := slashFree_split_unique s1 so hl0
    obtain ⟨e2, hl2⟩ := slashFree_split_unique s2 sr hl1
    have st : '/' ∉ "tree".toList := by decide
    obtain ⟨e3, hl3⟩ := slashFree_split_unique hks st hl2
    rcases htl' with rfl | rfl
    · have h2 : '/' ∈ branch ++ [] := by rw [← hl3]; simp
      exact sb (by simpa using h2)
    · obtain ⟨-, hp⟩ := slashFree_split_unique s3 sb hl3
      simp only [List.append_eq_nil] at hp
      exact n4 hp.1

theorem parseGitHubLink_rejects_witness :
    parseGitHubLink "http://github.com/acme/widgets/tree/main/src".toList
        = .error invalidLinkFormat ∧
    parseGitHubLink "https://github.com/acme/widgets/commits/main/src".toList
        = .error invalidLinkFormat ∧
    parseGitHubLink "https://github.com/acme/widgets/tree/main/".toList
        = .error invalidLinkFormat :=
  ⟨parseGitHubLink_rejects _ (Or.inl (by decide)),
   parseGitHubLink_rejects _ (Or.inr (Or.inl ⟨"acme".toList, "widgets".toList,
      "commits".toList, "/main/src".toList, by decide, by decide, by decide,
      Or.inr ⟨_, rfl⟩, by decide, by decide, by decide⟩)),
   parseGitHubLink_rejects _ (Or.inr (Or.inr ⟨"acme".toList, "widgets".toList,
      "main".toList, by decide, by decide, by decide, Or.inr (by decide)⟩))⟩

/-- On success the four fields are non-empty. -/
theorem parseGitHubLink_fields_nonempty (link : Str) (ri : RepoInfo)
    (h : parseGitHubLink link = .ok ri) :
    ri.Owner ≠ [] ∧ ri.Repo ≠ [] ∧ ri.Branch ≠ [] ∧ ri.Path ≠ [] := by
  rw [parseGitHubLink_eq_ok_iff] at h
  obtain ⟨kind, -, -, n1, -, n2, -, n3, -, n4, -⟩ := h
  exact ⟨n1, n2, n3, n4⟩

/-- C3 at the failing input: a link that ends in two slashes parses, and the parsed
path keeps one of them, against the invariant. -/
theorem parseGitHubLink_path_trailing_slash :
    parseGitHubLink "https://github.com/o/r/tree/b/p//".toList
      = .ok ⟨"o".toList, "r".toList, "b".toList, "p/".toList⟩ ∧
    ¬ (RepoInfo.Invariant ⟨"o".toList, "r".toList, "b".toList, "p/".toList⟩) := by
  decide

/-! ## Lemmas on paths -/

theorem splitSlash_ne_nil (s : Str) : splitSlash s ≠ [] := by
  cases s with
  | nil => simp [splitSlash]
  | cons c s => by_cases h : c = '/' <;> simp [splitSlash, h]

theorem splitSlash_append_slash (a b : Str) :
    splitSlash (a ++ '/' :: b) = splitSlash a ++ splitSlash b := by
  induction a with
  | nil => simp [splitSlash]
  | cons c a ih =>
    by_cases h : c = '/'
    · simp [splitSlash, h, ih]
    · have hne := splitSlash_ne_nil a
      cases hs : splitSlash a with
      | nil => exact absurd hs hne
      | cons x xs => simp [splitSlash, h, ih, hs]

theorem splitSlash_slashFree {a : Str} (h : '/' ∉ a) : splitSlash a = [a] := by
  induction a with
  | nil => rfl
  | cons c a ih =>
    simp only [List.mem_cons, not_or] at h
    have hc : c ≠ '/' := fun e => h.1 e.symm
    simp [splitSlash, hc, ih h.2]

theorem splitSlash_noSlash (s : Str) : ∀ seg ∈ splitSlash s, '/' ∉ seg := by
  induction s with
  | nil => simp [splitSlash]
  | cons c s ih =>
    by_cases h : c = '/'
    · simp only [splitSlash, h, if_true, List.mem_cons]
      rintro seg (rfl | hs)
      · simp
      · exact ih seg hs
    · have hne := splitSlash_ne_nil s
      cases hs : splitSlash s with
      | nil => exact absurd hs hne
      | cons x xs =>
        rw [hs] at ih
        simp only [splitSlash, h, if_false, hs, List.headD_cons, List.tail_cons, List.mem_cons]
        rintro seg (rfl | hm)
        · have := ih x (by simp)
          simp only [List.mem_cons, not_or]
          exact ⟨fun e => h e.symm, this⟩
        · exact ih seg (by simp [hm])

theorem cleanStep_ordinary (rooted : Bool) (stack : List Str) {name : Str}
    (h : Ordinary name) : cleanStep rooted stack name = name :: stack := by
  obtain ⟨h1, -, h3, h4⟩ := h
  simp [cleanStep, h1, h3, h4]

theorem cleanStep_normal (rooted : Bool) (stack : List Str) (seg : Str)
    (hs : NormalElems rooted stack) (hseg : '/' ∉ seg) :
    NormalElems rooted (cleanStep rooted stack seg) := by
  unfold cleanStep
  split
  · exact hs
  · rename_i h1
    simp only [not_or] at h1
    split
    · rename_i h2
      cases stack with
      | nil =>
        cases rooted
        · simp [NormalElems, dotdot]
        · simp [NormalElems]
      | cons top below =>
        simp only
        split
        · rename_i h3
          cases rooted
          · simp only [Bool.false_eq_true, if_false]
            refine ⟨hs, by simp [dotdot], by simp [dotdot], by simp [dotdot], fun _ => ⟨rfl, ?_⟩⟩
            intro x hx
            rcases List.mem_cons.1 hx with rfl | hx
            · exact h3
            · exact (hs.2.2.2.2 h3).2 x hx
          · simpa using hs
        · exact hs.1
    · rename_i h2
      exact ⟨hs, h1.1, hseg, h1.2, fun e => absurd e h2⟩

theorem foldl_cleanStep_normal (rooted : Bool) (segs : List Str) (stack : List Str)
    (hs : NormalElems rooted stack) (hsegs : ∀ seg ∈ segs, '/' ∉ seg) :
    NormalElems rooted (segs.foldl (cleanStep rooted) stack) := by
  induction segs generalizing stack with
  | nil => exact hs
  | cons seg segs ih =>
    simp only [List.foldl_cons]
    exact ih _ (cleanStep_normal rooted stack seg hs (hsegs seg (by simp)))
      (fun x hx => hsegs x (by simp [hx]))

theorem pathKey_normal (path : Str) : NormalElems (pathKey path).rooted (pathKey path).elems := by
  unfold pathKey
  exact foldl_cleanStep_normal _ _ [] trivial (splitSlash_noSlash path)

/-- Processing the elements of a cleaned path gives the path back. -/
theorem foldl_cleanStep_reverse (rooted : Bool) (elems : List Str)
    (h : NormalElems rooted elems) :
    elems.reverse.foldl (cleanStep rooted) [] = elems := by
  induction elems with
  | nil => rfl
  | cons e up ih =>
    obtain ⟨hup, h1, -, h3, h4⟩ := h
    rw [List.reverse_cons, List.foldl_append, ih hup]
    simp only [List.foldl_cons, List.foldl_nil]
    by_cases hd : e = dotdot
    · obtain ⟨hr, hall⟩ := h4 hd
      subst hd hr
      cases up with
      | nil => simp [cleanStep, dotdot]
      | cons top below =>
        have : top = dotdot := hall top (by simp)
        subst this
        simp [cleanStep, dotdot]
    · simp [cleanStep, h1, h3, hd]

theorem joinSlash_concat (xs : List Str) (a : Str) :
    joinSlash (xs ++ [a]) = if xs = [] then a else joinSlash xs ++ '/' :: a := by
  induction xs with
  | nil => simp [joinSlash]
  | cons x xs ih =>
    cases xs with
    | nil => simp [joinSlash]
    | cons y ys =>
      have ih' : joinSlash (y :: (ys ++ [a])) = joinSlash (y :: ys) ++ '/' :: a := by
        simpa using ih
      show joinSlash (x :: y :: (ys ++ [a])) = _
      simp [joinSlash, ih']

theorem splitSlash_joinSlash (xs : List Str) (hne : xs ≠ []) (h : ∀ x ∈ xs, '/' ∉ x) :
    splitSlash (joinSlash xs) = xs := by
  induction xs with
  | nil => exact absurd rfl hne
  | cons x xs ih =>
    cases xs with
    | nil => simpa [joinSlash] using splitSlash_slashFree (h x (by simp))
    | cons y ys =>
      simp only [joinSlash]
      rw [splitSlash_append_slash, splitSlash_slashFree (h x (by simp)),
        ih (by simp) (fun z hz => h z (by simp [hz]))]
      rfl

theorem normalElems_noSlash {rooted : Bool} {elems : List Str} (h : NormalElems rooted elems) :
    ∀ x ∈ elems, x ≠ [] ∧ '/' ∉ x := by
  induction elems with
  | nil => simp
  | cons e up ih =>
    intro x hx
    rcases List.mem_cons.1 hx with rfl | hx
    · exact ⟨h.2.1, h.2.2.1⟩
    · exact ih h.1 x hx

theorem head?_joinSlash_ne_slash (xs : List Str) (h : ∀ x ∈ xs, x ≠ [] ∧ '/' ∉ x) :
    (joinSlash xs).head? ≠ some '/' := by
  cases xs with
  | nil => simp [joinSlash]
  | cons x xs =>
    obtain ⟨hne, hs⟩ := h x (by simp)
    cases x with
    | nil => exact absurd rfl hne
    | cons c x =>
      have hc : c ≠ '/' := fun e => hs (by simp [e])
      cases xs with
      | nil => simpa [joinSlash] using hc
      | cons y ys => simpa [joinSlash] using hc

/-- Cleaning the text of a cleaned path gives the same cleaned path. -/
theorem pathKey_renderKey (k : PathKey) (h : NormalElems k.rooted k.elems) :
    pathKey (renderKey k) = k := by
  obtain ⟨rooted, elems⟩ := k
  simp only at h
  cases elems with
  | nil => cases rooted <;> rfl
  | cons e up =>
    have hall := normalElems_noSlash h
    have hrev : ∀ x ∈ (e :: up).reverse, x ≠ [] ∧ '/' ∉ x := fun x hx =>
      hall x (List.mem_reverse.1 hx)
    have hne : (e :: up).reverse ≠ [] := by simp
    have hfold := foldl_cleanStep_reverse rooted (e :: up) h
    have hsplit := splitSlash_joinSlash _ hne (fun x hx => (hrev x hx).2)
    cases rooted
    · have hhead := head?_joinSlash_ne_slash _ hrev
      have hb : ((joinSlash (e :: up).reverse).head? == some '/') = false := by
        simpa using hhead
      have hr : renderKey ⟨false, e :: up⟩ = joinSlash (e :: up).reverse := by
        simp [renderKey]
      rw [hr]
      unfold pathKey
      simp only []
      rw [hb, hsplit, hfold]
    · have hr : renderKey ⟨true, e :: up⟩ = '/' :: joinSlash (e :: up).reverse := by
        simp [renderKey]
      have hs : splitSlash ('/' :: joinSlash (e :: up).reverse)
          = [] :: splitSlash (joinSlash (e :: up).reverse) := by simp [splitSlash]
      rw [hr]
      unfold pathKey
      simp only []
      rw [hs, hsplit, List.foldl_cons]
      have hb : ((('/' :: joinSlash (e :: up).reverse).head? == some '/')) = true := by simp
      rw [hb]
      have hc : cleanStep true [] [] = [] := by simp [cleanStep]
      rw [hc, hfold]

theorem pathKey_Clean (path : Str) : pathKey (filepath.Clean path) = pathKey path :=
  pathKey_renderKey _ (pathKey_normal path)

/-- The cleaned form of `filepath.Join(a, name)` for an ordinary name: the entry `name`
of the directory at `a`. -/
theorem pathKey_Join (a : Str) {name : Str} (h : Ordinary name) :
    pathKey (filepath.Join a name) = (pathKey a).child name := by
  have hsl : '/' ∉ name := h.2.1
  unfold filepath.Join
  by_cases ha : a = []
  · subst ha
    simp only [ne_eq, not_true_eq_false, if_false, h.1, not_false_eq_true, if_true]
    rw [pathKey_Clean]
    have hhead : (name.head? == some '/') = false := by
      cases name with
      | nil => rfl
      | cons c n =>
        have : c ≠ '/' := fun e => hsl (by simp [e])
        simpa using this
    simp only [pathKey, hhead, splitSlash_slashFree hsl, List.foldl_cons, List.foldl_nil,
      cleanStep_ordinary _ _ h, PathKey.child, List.head?_nil, splitSlash]
    simp [cleanStep]
  · simp only [ne_eq, ha, not_false_eq_true, if_true]
    rw [pathKey_Clean]
    have hhead : (a ++ '/' :: name).head? = a.head? := by
      cases a with
      | nil => exact absurd rfl ha
      | cons c a => rfl
    simp only [pathKey, hhead, splitSlash_append_slash, List.foldl_append,
      splitSlash_slashFree hsl, List.foldl_cons, List.foldl_nil, cleanStep_ordinary _ _ h,
      PathKey.child]

theorem endsWithDot_append_ordinary (pre : Str) {name : Str} (h : Ordinary name) :
    endsWithDot (pre ++ name) = false := by
  obtain ⟨h1, h2, h3, -⟩ := h
  rcases List.eq_nil_or_concat name with rfl | ⟨init, c, rfl⟩
  · exact absurd rfl h1
  · by_cases hc : c = '.'
    · subst hc
      rcases List.eq_nil_or_concat init with rfl | ⟨init', d, rfl⟩
      · exact absurd rfl h3
      · have hd : d ≠ '/' := fun e => h2 (by simp [e])
        simp [endsWithDot, hd]
    · have hrev : (pre ++ init.concat c).reverse = c :: (init.reverse ++ pre.reverse) := by simp
      unfold endsWithDot
      rw [hrev]
      cases (init.reverse ++ pre.reverse) with
      | nil => simp [hc]
      | cons d tl => simp [hc]

theorem renderKey_child (k : PathKey) (name : Str) :
    ∃ pre : Str, renderKey (k.child name) = pre ++ name := by
  obtain ⟨rooted, elems⟩ := k
  simp only [renderKey, PathKey.child, List.reverse_cons, joinSlash_concat]
  by_cases he : elems.reverse = []
  · exact ⟨if rooted then ['/'] else [], by simp [he]⟩
  · exact ⟨(if rooted then ['/'] else []) ++ joinSlash elems.reverse ++ ['/'], by simp [he]⟩

theorem filepath.Join_eq_renderKey (a : Str) {name : Str} (h : Ordinary name) :
    filepath.Join a name = renderKey ((pathKey a).child name) := by
  have hk := pathKey_Join a h
  unfold filepath.Join at hk ⊢
  by_cases ha : a = []
  · simp only [ha, ne_eq, not_true_eq_false, if_false, h.1, not_false_eq_true, if_true,
      pathKey_Clean] at hk ⊢
    unfold filepath.Clean
    rw [hk]
  · simp only [ne_eq, ha, not_false_eq_true, if_true, pathKey_Clean] at hk ⊢
    unfold filepath.Clean
    rw [hk]

theorem filepath.Join_ne_nil (a : Str) {name : Str} (h : Ordinary name) :
    filepath.Join a name ≠ [] := by
  obtain ⟨pre, e⟩ := renderKey_child (pathKey a) name
  rw [filepath.Join_eq_renderKey a h, e]
  intro hnil
  exact h.1 (List.append_eq_nil.1 hnil).2

theorem endsWithDot_Join (a : Str) {name : Str} (h : Ordinary name) :
    endsWithDot (filepath.Join a name) = false := by
  obtain ⟨pre, e⟩ := renderKey_child (pathKey a) name
  rw [filepath.Join_eq_renderKey a h, e]
  exact endsWithDot_append_ordinary pre h

/-! ## The calls of a run of `downloadDirectory` -/

theorem abortsAtFirstFailure_append {evs1 evs2 : List Event} {r : Result}
    (h1 : ∀ x ∈ evs1, x.wrapped = none) (h2 : AbortsAtFirstFailure evs2 r) :
    AbortsAtFirstFailure (evs1 ++ evs2) r := by
  cases r with
  | success =>
    intro x hx
    rcases List.mem_append.1 hx with hx | hx
    · exact h1 x hx
    · exact h2 x hx
  | outOfFuel =>
    intro x hx
    rcases List.mem_append.1 hx with hx | hx
    · exact h1 x hx
    · exact h2 x hx
  | failure msg =>
    obtain ⟨pre, e, he, hw, hpre⟩ := h2
    refine ⟨evs1 ++ pre, e, by simp [he], hw, ?_⟩
    intro x hx
    rcases List.mem_append.1 hx with hx | hx
    · exact h1 x hx
    · exact hpre x hx

theorem downloadItems_calls (env : Remote) (recurse : Str → Str → World → World × Result)
    (hrec : ∀ rp lp w, ∃ evs, (recurse rp lp w).1.trace = w.trace ++ evs ∧
      AbortsAtFirstFailure evs (recurse rp lp w).2)
    (localPath : Str) (items : List GitHubContent) (w : World) :
    ∃ evs, (downloadItems env recurse localPath items w).1.trace = w.trace ++ evs ∧
      AbortsAtFirstFailure evs (downloadItems env recurse localPath items w).2 := by
  induction items generalizing w with
  | nil => exact ⟨[], by simp [downloadItems], by simp [downloadItems, AbortsAtFirstFailure]⟩
  | cons item rest ih =>
    unfold downloadItems
    simp only
    split
    · -- a directory
      split
      · rename_i err _
        exact ⟨[.mkdirAll (filepath.Join localPath item.Name) (some err)], rfl,
          [], _, rfl, rfl, by simp⟩
      · rename_i fs1 _
        generalize hw1 : (({ w with fs := fs1 } : World).log
          (.mkdirAll (filepath.Join localPath item.Name) none)).print
            ("📁 ".toList ++ item.Path ++ "/\n".toList) = w1
        have hw1t : w1.trace = w.trace ++ [.mkdirAll (filepath.Join localPath item.Name) none] := by
          rw [← hw1]; rfl
        obtain ⟨evs, ht, ha⟩ := hrec item.Path (filepath.Join localPath item.Name) w1
        split
        · rename_i w2 heq
          rw [heq] at ht ha
          obtain ⟨evs', ht', ha'⟩ := ih w2
          refine ⟨[.mkdirAll (filepath.Join localPath item.Name) none] ++ (evs ++ evs'), ?_, ?_⟩
          · rw [ht', ht, hw1t]; simp
          · refine abortsAtFirstFailure_append (by simp [Event.wrapped]) ?_
            exact abortsAtFirstFailure_append ha ha'
        · rename_i w2 r hne heq
          rw [heq] at ht ha
          refine ⟨[.mkdirAll (filepath.Join localPath item.Name) none] ++ evs, ?_, ?_⟩
          · simp only at ht ⊢; rw [ht, hw1t]; simp
          · exact abortsAtFirstFailure_append (by simp [Event.wrapped]) ha
    · split
      · -- a file
        split
        · rename_i fs2 err _
          exact ⟨[.fetch item.Path item.DownloadURL (filepath.Join localPath item.Name)
            (some err)], rfl, [], _, rfl, rfl, by simp⟩
        · rename_i fs2 _ _
          obtain ⟨evs', ht', ha'⟩ := ih (({ (w.print ("📄 ".toList ++ item.Name ++ "\n".toList))
            with fs := fs2 } : World).log (.fetch item.Path item.DownloadURL
              (filepath.Join localPath item.Name) none))
          refine ⟨[.fetch item.Path item.DownloadURL (filepath.Join localPath item.Name) none]
            ++ evs', ?_, ?_⟩
          · rw [ht']; simp [World.log, World.print]
          · exact abortsAtFirstFailure_append (by simp [Event.wrapped]) ha'
      · exact ih w

/-- The calls of a run of `downloadDirectory`, and its result. -/
theorem downloadDirectory_calls (fuel : Nat) (env : Remote) (repoInfo : RepoInfo)
    (remotePath localPath : Str) (w : World) :
    ∃ evs, (downloadDirectory fuel env repoInfo remotePath localPath w).1.trace = w.trace ++ evs ∧
      AbortsAtFirstFailure evs (downloadDirectory fuel env repoInfo remotePath localPath w).2 := by
  induction fuel generalizing remotePath localPath w with
  | zero => exact ⟨[], by simp [downloadDirectory], by simp [downloadDirectory, AbortsAtFirstFailure]⟩
  | succ fuel ih =>
    unfold downloadDirectory
    split
    · rename_i err _
      exact ⟨[.listing remotePath (some err)], rfl, [], _, rfl, rfl, by simp⟩
    · rename_i contents _
      split
      · exact ⟨[.listing remotePath none], rfl, by simp [AbortsAtFirstFailure, Event.wrapped]⟩
      · obtain ⟨evs, ht, ha⟩ := downloadItems_calls env (downloadDirectory fuel env repoInfo)
          (fun rp lp w => ih rp lp w) localPath contents (w.log (.listing remotePath none))
        refine ⟨[.listing remotePath none] ++ evs, ?_, ?_⟩
        · rw [ht]; simp [World.log]
        · exact abortsAtFirstFailure_append (by simp [Event.wrapped]) ha

theorem failedCall_wrapped_ne_none {e : Event} (h : e.FailedCall) : e.wrapped ≠ none := by
  cases e with
  | listing p err => cases err <;> simp [Event.FailedCall, Event.wrapped] at h ⊢
  | mkdirAll p err => simp [Event.FailedCall] at h
  | fetch p u l err => cases err <;> simp [Event.FailedCall, Event.wrapped] at h ⊢
  | removeAll p err => simp [Event.FailedCall] at h

/-- A failed call in the calls of a run is the last call, and the run returns its
wrapped error. -/
theorem failedCall_is_last {calls pre post : List Event} {e : Event} {r : Result}
    (ha : AbortsAtFirstFailure calls r) (hc : calls = pre ++ e :: post)
    (hf : e.wrapped ≠ none) :
    post = [] ∧ ∃ msg, e.wrapped = some msg ∧ r = .failure msg := by
  have hmem : e ∈ calls := by rw [hc]; simp
  cases r with
  | success => exact absurd (ha e hmem) hf
  | outOfFuel => exact absurd (ha e hmem) hf
  | failure msg =>
    obtain ⟨pre', e', he, hw, hpre⟩ := ha
    rw [hc] at he
    have hnot : e ∉ pre' := fun hm => hf (hpre e hm)
    rcases List.append_eq_append_iff.1 he with ⟨a', h1, h2⟩ | ⟨c', h1, h2⟩
    · -- pre' = pre ++ a', e :: post = a' ++ [e']
      cases a' with
      | nil =>
        simp only [List.nil_append, List.cons.injEq] at h2
        exact ⟨h2.2, msg, h2.1 ▸ hw, rfl⟩
      | cons x xs =>
        simp only [List.cons_append, List.cons.injEq] at h2
        exact absurd (by rw [h1, h2.1]; simp) hnot
    · -- pre = pre' ++ c', [e'] = c' ++ e :: post
      cases c' with
      | nil =>
        simp only [List.nil_append, List.cons.injEq] at h2
        exact ⟨h2.2.symm, msg, h2.1 ▸ hw, rfl⟩
      | cons x xs =>
        simp only [List.cons_append, List.cons.injEq] at h2
        have := h2.2
        simp at this

/-! ## Lemmas on the lookup of paths -/

theorem utf8Len_append (a b : Str) : utf8Len (a ++ b) = utf8Len a + utf8Len b := by
  induction a with
  | nil => simp [utf8Len]
  | cons c a ih =>
    simp only [utf8Len, List.cons_append, List.foldr_cons] at ih ⊢
    omega

theorem checkPath_eq_ok_iff (path : Str) :
    checkPath path = .ok () ↔ Char.ofNat 0 ∉ path ∧ path ≠ [] ∧ utf8Len path < pathMax := by
  unfold checkPath
  by_cases h0 : Char.ofNat 0 ∈ path
  · simp [h0]
  · by_cases h1 : path = []
    · simp [h1]
    · by_cases h2 : pathMax ≤ utf8Len path
      · simp [h0, h1, h2]
      · simp only [h0, h1, h2, if_false, not_false_eq_true, ne_eq, true_and, true_iff]
        omega

theorem checkPath_cases (path : Str) :
    checkPath path = .ok () ∨ ∃ e, checkPath path = .error e := by
  cases h : checkPath path with
  | error e => exact Or.inr ⟨e, rfl⟩
  | ok u => exact Or.inl rfl

/-- A path that starts an accepted path, and is not empty, is accepted. -/
theorem checkPath_of_append {a b : Str} (h : checkPath (a ++ b) = .ok ()) (ha : a ≠ []) :
    checkPath a = .ok () := by
  rw [checkPath_eq_ok_iff] at h ⊢
  obtain ⟨h0, -, h2⟩ := h
  rw [utf8Len_append] at h2
  exact ⟨fun hm => h0 (List.mem_append_left _ hm), ha, by omega⟩

theorem lookupStep_eq_ok {fs : FS} {rooted : Bool} {cur cur' : List Str} {c : Str}
    (h : lookupStep fs rooted cur c = .ok cur') :
    fs ⟨rooted, cur⟩ = some Node.dir ∧ cur' = cleanStep rooted cur c ∧
      (c ≠ [] → c ≠ ['.'] → c ≠ dotdot → utf8Len c ≤ nameMax) := by
  unfold lookupStep at h
  split at h
  · simp at h
  · simp at h
  · rename_i hd
    split at h
    · simp at h
    · rename_i hc
      simp only [Except.ok.injEq] at h
      refine ⟨hd, h.symm, ?_⟩
      intro h1 h2 h3
      by_contra hlen
      exact hc ⟨h1, h2, h3, by omega⟩

theorem lookupStep_of_dir {fs : FS} {rooted : Bool} {cur : List Str} {c : Str}
    (hd : fs ⟨rooted, cur⟩ = some Node.dir) (hlen : c ≠ dotdot → utf8Len c ≤ nameMax) :
    lookupStep fs rooted cur c = .ok (cleanStep rooted cur c) := by
  unfold lookupStep
  rw [hd]
  simp only
  rw [if_neg]
  rintro ⟨-, -, h3, h4⟩
  have := hlen h3
  omega

theorem walk_append (fs : FS) (rooted : Bool) (cs1 cs2 cur : List Str) :
    walk fs rooted (cs1 ++ cs2) cur =
      match walk fs rooted cs1 cur with
      | .error e => .error e
      | .ok cur1 => walk fs rooted cs2 cur1 := by
  induction cs1 generalizing cur with
  | nil => simp [walk]
  | cons c cs ih =>
    simp only [List.cons_append, walk]
    cases lookupStep fs rooted cur c with
    | error e => simp
    | ok cur1 => simp [ih]

theorem walk_eq_foldl {fs : FS} {rooted : Bool} {cs cur cur' : List Str}
    (h : walk fs rooted cs cur = .ok cur') : cur' = cs.foldl (cleanStep rooted) cur := by
  induction cs generalizing cur with
  | nil => simp only [walk, Except.ok.injEq] at h; simp [h]
  | cons c cs ih =>
    simp only [walk] at h
    cases hs : lookupStep fs rooted cur c with
    | error e => simp [hs] at h
    | ok cur1 =>
      rw [hs] at h
      simp only at h
      rw [ih h, (lookupStep_eq_ok hs).2.1]
      rfl

theorem lookupStep_reachable {fs : FS} {rooted : Bool} {cur cur' : List Str} {c : Str}
    (h : lookupStep fs rooted cur c = .ok cur') (hr : Reachable fs rooted cur) :
    Reachable fs rooted cur' := by
  obtain ⟨hd, rfl, hlen⟩ := lookupStep_eq_ok h
  unfold cleanStep
  split
  · exact hr
  · rename_i h1
    simp only [not_or] at h1
    split
    · cases cur with
      | nil =>
        cases rooted
        · exact ⟨hd, fun hne => absurd rfl hne, trivial⟩
        · exact trivial
      | cons top below =>
        simp only
        split
        · cases rooted
          · exact ⟨hd, fun hne => absurd rfl hne, hr⟩
          · exact hr
        · exact hr.2.2
    · rename_i h2
      exact ⟨hd, fun _ => hlen h1.1 h1.2 h2, hr⟩

theorem walk_reachable {fs : FS} {rooted : Bool} {cs cur cur' : List Str}
    (h : walk fs rooted cs cur = .ok cur') (hr : Reachable fs rooted cur) :
    Reachable fs rooted cur' := by
  induction cs generalizing cur with
  | nil => simp only [walk, Except.ok.injEq] at h; rw [← h]; exact hr
  | cons c cs ih =>
    simp only [walk] at h
    cases hs : lookupStep fs rooted cur c with
    | error e => simp [hs] at h
    | ok cur1 =>
      rw [hs] at h
      exact ih h (lookupStep_reachable hs hr)

/-- A lookup that succeeds leads to the cleaned form of the path; the path is accepted,
the node exists and can be reached. -/
theorem namei_eq_ok {fs : FS} {path : Str} {k : PathKey} (h : namei fs path = .ok k) :
    k = pathKey path ∧ fs k ≠ none ∧ checkPath path = .ok () ∧
      Reachable fs k.rooted k.elems := by
  unfold namei at h
  rcases checkPath_cases path with hc | ⟨e, hc⟩
  swap
  · simp [hc] at h
  rw [hc] at h
  simp only at h
  cases hw : walk fs (isRooted path) (splitSlash path) [] with
  | error e => simp [hw] at h
  | ok cur =>
    rw [hw] at h
    simp only at h
    split at h
    · simp at h
    · rename_i n hn
      simp only [Except.ok.injEq] at h
      subst h
      refine ⟨?_, by simp [hn], hc, walk_reachable hw trivial⟩
      rw [walk_eq_foldl hw]
      rfl

theorem os.Stat_eq_some {fs : FS} {path : Str} {n : Node} (h : os.Stat fs path = some n) :
    fs (pathKey path) = some n ∧ checkPath path = .ok () ∧
      Reachable fs (pathKey path).rooted (pathKey path).elems := by
  unfold os.Stat at h
  cases hn : namei fs path with
  | error e => simp [hn] at h
  | ok k =>
    rw [hn] at h
    obtain ⟨rfl, -, hc, hr⟩ := namei_eq_ok hn
    exact ⟨h, hc, hr⟩

theorem namei_of_Stat {fs : FS} {path : Str} {n : Node} (h : os.Stat fs path = some n) :
    namei fs path = .ok (pathKey path) := by
  unfold os.Stat at h
  cases hn : namei fs path with
  | error e => simp [hn] at h
  | ok k =>
    obtain ⟨rfl, -, -, -⟩ := namei_eq_ok hn
    rfl

theorem os.Stat_of_none {fs : FS} {path : Str} (h : fs (pathKey path) = none) :
    os.Stat fs path = none := by
  unfold os.Stat
  cases hn : namei fs path with
  | error e => rfl
  | ok k =>
    obtain ⟨rfl, -, -, -⟩ := namei_eq_ok hn
    exact h

theorem Reachable_congr {fs fs' : FS} {rooted : Bool} {elems : List Str}
    (h : ∀ t, t <:+ elems → fs' ⟨rooted, t⟩ = fs ⟨rooted, t⟩)
    (hr : Reachable fs rooted elems) : Reachable fs' rooted elems := by
  induction elems with
  | nil => exact trivial
  | cons e up ih =>
    refine ⟨?_, hr.2.1, ih (fun t ht => h t (ht.trans (List.suffix_cons e up))) hr.2.2⟩
    rw [h up (List.suffix_cons e up)]
    exact hr.1

theorem reachable_root {fs : FS} {rooted : Bool} {elems : List Str}
    (hr : Reachable fs rooted elems) (hk : fs ⟨rooted, elems⟩ = some Node.dir) :
    fs ⟨rooted, []⟩ = some Node.dir := by
  induction elems with
  | nil => exact hk
  | cons e up ih => exact ih hr.2.2 hr.1

theorem cleanStep_of_normal {rooted : Bool} {e : Str} {up : List Str}
    (h : NormalElems rooted (e :: up)) : cleanStep rooted up e = e :: up := by
  have h1 := foldl_cleanStep_reverse rooted (e :: up) h
  have h2 := foldl_cleanStep_reverse rooted up h.1
  rw [List.reverse_cons, List.foldl_append, h2] at h1
  simpa using h1

/-- The lookup of the elements of a cleaned path that can be reached leads to it. -/
theorem walk_reverse {fs : FS} {rooted : Bool} {elems : List Str}
    (hn : NormalElems rooted elems) (hr : Reachable fs rooted elems) :
    walk fs rooted elems.reverse [] = .ok elems := by
  induction elems with
  | nil => rfl
  | cons e up ih =>
    rw [List.reverse_cons, walk_append, ih hn.1 hr.2.2]
    simp only [walk]
    rw [lookupStep_of_dir hr.1 hr.2.1, cleanStep_of_normal hn]

theorem renderKey_nil (rooted : Bool) :
    renderKey ⟨rooted, []⟩ = if rooted then ['/'] else ['.'] := rfl

theorem renderKey_cons (rooted : Bool) (e : Str) (up : List Str) :
    renderKey ⟨rooted, e :: up⟩ = (if rooted then ['/'] else []) ++ joinSlash (e :: up).reverse :=
  rfl

theorem isRooted_renderKey (k : PathKey) (h : NormalElems k.rooted k.elems) :
    isRooted (renderKey k) = k.rooted := by
  have := pathKey_renderKey k h
  have h2 : (pathKey (renderKey k)).rooted = k.rooted := by rw [this]
  exact h2

/-- The elements of the text of a cleaned path with at least one element. -/
theorem splitSlash_renderKey_cons (rooted : Bool) (e : Str) (up : List Str)
    (h : NormalElems rooted (e :: up)) :
    splitSlash (renderKey ⟨rooted, e :: up⟩)
      = (if rooted then [[]] else []) ++ (e :: up).reverse := by
  have hsl : ∀ x ∈ (e :: up).reverse, '/' ∉ x := fun x hx =>
    (normalElems_noSlash h x (List.mem_reverse.1 hx)).2
  have hsplit := splitSlash_joinSlash (e :: up).reverse (by simp) hsl
  rw [renderKey_cons]
  cases rooted
  · simpa using hsplit
  · have : splitSlash ('/' :: joinSlash (e :: up).reverse)
        = [] :: splitSlash (joinSlash (e :: up).reverse) := by simp [splitSlash]
    simp only [if_true, List.singleton_append]
    rw [this, hsplit]

theorem normalElems_child {K : PathKey} {name : Str} (hn : NormalElems K.rooted K.elems)
    (hord : Ordinary name) : NormalElems K.rooted (name :: K.elems) :=
  ⟨hn, hord.1, hord.2.1, hord.2.2.1, fun e => absurd e hord.2.2.2⟩

/-- The lookup of the text of a cleaned path that exists as a directory and can be
reached finds it. -/
theorem os.Stat_renderKey {fs : FS} (k : PathKey) (hn : NormalElems k.rooted k.elems)
    (hr : Reachable fs k.rooted k.elems) (hk : fs k = some Node.dir)
    (hc : checkPath (renderKey k) = .ok ()) : os.Stat fs (renderKey k) = some Node.dir := by
  have hroot := reachable_root hr hk
  have hw : walk fs k.rooted (splitSlash (renderKey k)) [] = .ok k.elems := by
    obtain ⟨rooted, elems⟩ := k
    cases elems with
    | nil =>
      have hstep : ∀ c : Str, c = [] ∨ c = ['.'] →
          lookupStep fs rooted [] c = .ok [] := by
        intro c hcc
        rw [lookupStep_of_dir hroot]
        · rcases hcc with rfl | rfl <;> simp [cleanStep]
        · intro _
          rcases hcc with rfl | rfl <;> simp [utf8Len, nameMax]
          decide
      cases rooted
      · simp only [renderKey_nil, Bool.false_eq_true, if_false]
        have : splitSlash ['.'] = [['.']] := by decide
        rw [this]
        simp [walk, hstep ['.'] (Or.inr rfl)]
      · simp only [renderKey_nil, if_true]
        have : splitSlash ['/'] = [[], []] := by decide
        rw [this]
        simp [walk, hstep [] (Or.inl rfl)]
    | cons e up =>
      rw [splitSlash_renderKey_cons rooted e up hn, walk_append]
      have h1 : walk fs rooted (if rooted then [[]] else []) [] = .ok [] := by
        cases rooted
        · rfl
        · simp only [if_true, walk]
          rw [lookupStep_of_dir hroot (by intro _; simp [utf8Len])]
          simp [cleanStep]
      rw [h1]
      exact walk_reverse hn hr
  unfold os.Stat namei
  rw [hc, isRooted_renderKey k hn]
  simp only [hw, hk]

/-- The text of the entry `name` of the directory at `K`. -/
theorem renderKey_child_eq (K : PathKey) (name : Str) :
    renderKey (K.child name)
      = (if K.elems = [] then (if K.rooted then ['/'] else []) else renderKey K ++ ['/'])
          ++ name := by
  obtain ⟨rooted, elems⟩ := K
  cases elems with
  | nil => simp [PathKey.child, renderKey, joinSlash]
  | cons e up =>
    simp only [PathKey.child, renderKey_cons, reduceCtorEq, if_false]
    rw [List.reverse_cons (a := name), joinSlash_concat]
    simp

theorem renderKey_ne_nil (k : PathKey) (hn : NormalElems k.rooted k.elems) :
    renderKey k ≠ [] := by
  obtain ⟨rooted, elems⟩ := k
  cases elems with
  | nil => cases rooted <;> simp [renderKey]
  | cons e up =>
    obtain ⟨pre, hp⟩ := renderKey_child ⟨rooted, up⟩ e
    simp only [PathKey.child] at hp
    rw [hp]
    intro h
    exact hn.2.1 (List.append_eq_nil.1 h).2

theorem splitLast_renderKey_child (K : PathKey) {name : Str}
    (hn : NormalElems K.rooted K.elems) (hord : Ordinary name) :
    splitLast (renderKey (K.child name))
      = ((if K.rooted then [[]] else []) ++ K.elems.reverse, some name) := by
  have hchild := normalElems_child hn hord
  unfold splitLast
  simp only [PathKey.child]
  rw [splitSlash_renderKey_cons K.rooted name K.elems hchild]
  have hne : (name == []) = false := by simpa using hord.1
  simp only [List.reverse_append, List.reverse_reverse, List.cons_append, List.dropWhile_cons,
    hne, Bool.false_eq_true, if_false]

theorem walk_to_parent {fs : FS} (K : PathKey) (hn : NormalElems K.rooted K.elems)
    (hr : Reachable fs K.rooted K.elems) (hK : fs K = some Node.dir) :
    walk fs K.rooted ((if K.rooted then [[]] else []) ++ K.elems.reverse) [] = .ok K.elems := by
  have hroot := reachable_root hr hK
  rw [walk_append]
  have h1 : walk fs K.rooted (if K.rooted then [[]] else []) [] = .ok [] := by
    cases hrt : K.rooted
    · rfl
    · rw [hrt] at hroot
      simp only [if_true, walk]
      rw [lookupStep_of_dir hroot (by intro _; simp [utf8Len])]
      simp [cleanStep]
  rw [h1]
  exact walk_reverse hn hr

theorem getLast?_renderKey_child (K : PathKey) {name : Str} (hord : Ordinary name) :
    (renderKey (K.child name)).getLast? ≠ some '/' := by
  obtain ⟨pre, hp⟩ := renderKey_child K name
  rw [hp, List.getLast?_append_of_ne_nil _ hord.1]
  intro h
  exact hord.2.1 (List.mem_of_getLast?_eq_some h)

theorem os.Mkdir_renderKey_child {fs : FS} (K : PathKey) {name : Str}
    (hn : NormalElems K.rooted K.elems) (hord : Ordinary name)
    (hlen : utf8Len name ≤ nameMax) (hr : Reachable fs K.rooted K.elems)
    (hK : fs K = some Node.dir) (hnone : fs (K.child name) = none)
    (hc : checkPath (renderKey (K.child name)) = .ok ()) :
    os.Mkdir fs (renderKey (K.child name)) = .ok (fs.set (K.child name) (some Node.dir)) := by
  have hrooted : isRooted (renderKey (K.child name)) = K.rooted :=
    isRooted_renderKey (K.child name) (normalElems_child hn hord)
  unfold os.Mkdir
  rw [hc]
  simp only [splitLast_renderKey_child K hn hord, hrooted, walk_to_parent K hn hr hK,
    lookupStep_of_dir hK (fun _ => hlen), cleanStep_ordinary _ _ hord]
  have h1 : ¬ (name = ['.'] ∨ name = dotdot) := by
    rintro (h | h)
    · exact hord.2.2.1 h
    · exact hord.2.2.2 h
  have h2 : fs ⟨K.rooted, name :: K.elems⟩ = none := hnone
  simp [h1, h2, PathKey.child]

theorem os.Create_renderKey_child {fs : FS} (K : PathKey) {name : Str}
    (hn : NormalElems K.rooted K.elems) (hord : Ordinary name)
    (hlen : utf8Len name ≤ nameMax) (hr : Reachable fs K.rooted K.elems)
    (hK : fs K = some Node.dir) (hnone : fs (K.child name) = none)
    (hc : checkPath (renderKey (K.child name)) = .ok ()) :
    os.Create fs (renderKey (K.child name))
      = .ok (fs.set (K.child name) (some (Node.file []))) := by
  have hrooted : isRooted (renderKey (K.child name)) = K.rooted :=
    isRooted_renderKey (K.child name) (normalElems_child hn hord)
  unfold os.Create
  rw [hc]
  simp only [splitLast_renderKey_child K hn hord, hrooted, walk_to_parent K hn hr hK,
    lookupStep_of_dir hK (fun _ => hlen), cleanStep_ordinary _ _ hord]
  have h1 : ¬ (name = ['.'] ∨ name = dotdot ∨
      (renderKey (K.child name)).getLast? = some '/') := by
    rintro (h | h | h)
    · exact hord.2.2.1 h
    · exact hord.2.2.2 h
    · exact getLast?_renderKey_child K hord h
  have h2 : fs ⟨K.rooted, name :: K.elems⟩ = none := hnone
  rw [if_neg h1]
  simp [h2, PathKey.child]

theorem dropWhile_append_of_all {α : Type} (p : α → Bool) (a b : List α)
    (h : ∀ x ∈ a, p x = true) : (a ++ b).dropWhile p = b.dropWhile p := by
  induction a with
  | nil => rfl
  | cons x a ih =>
    simp only [List.cons_append, List.dropWhile_cons, h x (by simp), if_true]
    exact ih (fun y hy => h y (by simp [hy]))

/-- The parent that `os.MkdirAll` makes before the entry `name` of the directory at `K`:
the directory at `K`, unless that is the root or the working directory. -/
theorem mkdirAllParent_renderKey_child (K : PathKey) {name : Str}
    (hn : NormalElems K.rooted K.elems) (hord : Ordinary name) :
    mkdirAllParent (renderKey (K.child name))
      = if K.elems = [] then none else some (renderKey K) := by
  obtain ⟨init, c, hname⟩ : ∃ init c, name = init ++ [c] := by
    rcases List.eq_nil_or_concat name with h | ⟨init, c, h⟩
    · exact absurd h hord.1
    · exact ⟨init, c, by simpa using h⟩
  have hc : c ≠ '/' := fun e => hord.2.1 (by rw [hname, e]; simp)
  have hall : ∀ x ∈ name.reverse, (x != '/') = true := by
    intro x hx
    have : x ≠ '/' := fun e => hord.2.1 (by rw [← e]; exact List.mem_reverse.1 hx)
    simpa using this
  have hfirst : ∀ pre : Str,
      ((pre ++ name).reverse.dropWhile (fun c => c == '/')).dropWhile (fun c => c != '/')
        = pre.reverse.dropWhile (fun c => c != '/') := by
    intro pre
    have h1 : (pre ++ name).reverse = c :: (init.reverse ++ pre.reverse) := by
      rw [hname]; simp
    have h2 : (c :: (init.reverse ++ pre.reverse)).dropWhile (fun c => c == '/')
        = c :: (init.reverse ++ pre.reverse) := by
      simp [List.dropWhile_cons, hc]
    rw [h1, h2, ← h1, List.reverse_append]
    exact dropWhile_append_of_all _ _ _ hall
  unfold mkdirAllParent
  rw [renderKey_child_eq]
  simp only [hfirst]
  by_cases he : K.elems = []
  · simp only [he, if_true]
    cases K.rooted
    · simp
    · simp
  · have hne := renderKey_ne_nil K hn
    simp only [he, if_false, List.reverse_append, List.reverse_cons, List.reverse_nil,
      List.nil_append, List.singleton_append, List.dropWhile_cons, bne_self_eq_false,
      Bool.false_eq_true, List.length_cons, List.length_reverse, List.tail_cons,
      List.reverse_reverse]
    have : 0 < (renderKey K).length := List.length_pos.2 hne
    rw [if_pos (by omega)]

theorem os.MkdirAll_of_dir {fs : FS} {path : Str} (h : os.Stat fs path = some Node.dir) :
    os.MkdirAll fs path = .ok fs := by
  unfold os.MkdirAll
  rw [mkdirAllFuel]
  simp [h]

/-- `os.MkdirAll` of the entry `name`, which does not exist, of an existing directory:
the entry is made, and nothing else. -/
theorem os.MkdirAll_renderKey_child {fs : FS} (K : PathKey) {name : Str}
    (hn : NormalElems K.rooted K.elems) (hord : Ordinary name)
    (hlen : utf8Len name ≤ nameMax) (hr : Reachable fs K.rooted K.elems)
    (hK : fs K = some Node.dir) (hnone : fs (K.child name) = none)
    (hc : checkPath (renderKey (K.child name)) = .ok ()) :
    os.MkdirAll fs (renderKey (K.child name))
      = .ok (fs.set (K.child name) (some Node.dir)) := by
  have hkey : pathKey (renderKey (K.child name)) = K.child name :=
    pathKey_renderKey _ (normalElems_child hn hord)
  have hstat : os.Stat fs (renderKey (K.child name)) = none :=
    os.Stat_of_none (by rw [hkey]; exact hnone)
  have hparent : (match mkdirAllParent (renderKey (K.child name)) with
      | some parent => mkdirAllFuel (renderKey (K.child name)).length fs parent
      | none => .ok fs) = .ok fs := by
    rw [mkdirAllParent_renderKey_child K hn hord]
    by_cases he : K.elems = []
    · simp [he]
    · simp only [he, if_false]
      have hlenpos : (renderKey (K.child name)).length
          = ((renderKey (K.child name)).length - 1) + 1 := by
        have : 0 < (renderKey (K.child name)).length :=
          List.length_pos.2 (renderKey_ne_nil _ (normalElems_child hn hord))
        omega
      have hcK : checkPath (renderKey K) = .ok () := by
        have heq := renderKey_child_eq K name
        simp only [he, if_false, List.append_assoc] at heq
        rw [heq] at hc
        exact checkPath_of_append hc (renderKey_ne_nil K hn)
      rw [hlenpos, mkdirAllFuel]
      simp [os.Stat_renderKey K hn hr hK hcK]
  unfold os.MkdirAll
  rw [mkdirAllFuel]
  simp only [hstat, hparent, os.Mkdir_renderKey_child K hn hord hlen hr hK hnone hc]

/-! ## The mirroring traversal: C5, C7, C9 -/

/-- C5: a failed listing or fetch call is the last call the run makes, and the run
returns an error; nothing is listed, created or fetched after it. -/
theorem downloadDirectory_aborts_on_first_failure (fuel : Nat) (env : Remote)
    (repoInfo : RepoInfo) (remotePath localPath : Str) (w : World)
    (pre post : List Event) (e : Event)
    (hrun : (downloadDirectory fuel env repoInfo remotePath localPath w).1.trace
      = w.trace ++ pre ++ e :: post)
    (hfail : e.FailedCall) :
    post = [] ∧ ∃ msg, (downloadDirectory fuel env repoInfo remotePath localPath w).2
      = .failure msg := by
  obtain ⟨evs, ht, ha⟩ := downloadDirectory_calls fuel env repoInfo remotePath localPath w
  rw [ht, List.append_assoc] at hrun
  have hc := List.append_cancel_left hrun
  obtain ⟨hp, msg, -, hr⟩ := failedCall_is_last ha hc (failedCall_wrapped_ne_none hfail)
  exact ⟨hp, msg, hr⟩

theorem downloadDirectory_aborts_on_first_failure_witness :
    ([] : List Event) = [] ∧
    ∃ msg, (downloadDirectory 5 acmeBroken acmeUtils "src/utils".toList "utils".toList
      (World.initial (FS.ofDirs [".".toList, "utils".toList]) [])).2 = .failure msg :=
  downloadDirectory_aborts_on_first_failure 5 acmeBroken acmeUtils "src/utils".toList
    "utils".toList (World.initial (FS.ofDirs [".".toList, "utils".toList]) [])
    [.listing "src/utils".toList none,
     .fetch "src/utils/a.go".toList "raw/a.go".toList "utils/a.go".toList none,
     .mkdirAll "utils/sub".toList none] []
    (.listing "src/utils/sub".toList (some "repository, branch, or path not found".toList))
    (by decide) (by decide)

/-- C7: a listing that succeeds with no entry makes `downloadDirectory` return success
after that one listing call, with no other call and the filesystem as it was. -/
theorem downloadDirectory_empty_listing (fuel : Nat) (env : Remote) (repoInfo : RepoInfo)
    (remotePath localPath : Str) (w : World)
    (h : getDirectoryContents env repoInfo remotePath = .ok []) :
    (downloadDirectory (fuel + 1) env repoInfo remotePath localPath w).2 = .success ∧
    (downloadDirectory (fuel + 1) env repoInfo remotePath localPath w).1.trace
      = w.trace ++ [.listing remotePath none] ∧
    (downloadDirectory (fuel + 1) env repoInfo remotePath localPath w).1.fs = w.fs := by
  simp [downloadDirectory, h, World.log, World.print]

theorem downloadDirectory_empty_listing_witness :
    (downloadDirectory 1 emptyRemote acmeUtils "src/utils".toList "utils".toList
      (World.initial (FS.ofDirs [".".toList, "utils".toList]) [])).2 = .success ∧
    (downloadDirectory 1 emptyRemote acmeUtils "src/utils".toList "utils".toList
      (World.initial (FS.ofDirs [".".toList, "utils".toList]) [])).1.trace
      = [] ++ [.listing "src/utils".toList none] ∧
    (downloadDirectory 1 emptyRemote acmeUtils "src/utils".toList "utils".toList
      (World.initial (FS.ofDirs [".".toList, "utils".toList]) [])).1.fs
      = FS.ofDirs [".".toList, "utils".toList] :=
  downloadDirectory_empty_listing 0 emptyRemote acmeUtils "src/utils".toList "utils".toList
    (World.initial (FS.ofDirs [".".toList, "utils".toList]) []) (by rfl)

/-- C9: when a listing of `p` or a fetch of the file at `p` fails with the error `err`,
the top-level call returns that error wrapped once with `p`, whatever the depth of the
failing call. -/
theorem downloadDirectory_error_wrapped_once (fuel : Nat) (env : Remote)
    (repoInfo : RepoInfo) (remotePath localPath : Str) (w : World)
    (pre post : List Event) (e : Event)
    (hrun : (downloadDirectory fuel env repoInfo remotePath localPath w).1.trace
      = w.trace ++ pre ++ e :: post) :
    (∀ p err : Str, e = .listing p (some err) →
      (downloadDirectory fuel env repoInfo remotePath localPath w).2
        = .failure ("failed to get directory contents for ".toList ++ p ++ ": ".toList ++ err)) ∧
    (∀ p url lp err : Str, e = .fetch p url lp (some err) →
      (downloadDirectory fuel env repoInfo remotePath localPath w).2
        = .failure ("failed to download file ".toList ++ p ++ ": ".toList ++ err)) := by
  obtain ⟨evs, ht, ha⟩ := downloadDirectory_calls fuel env repoInfo remotePath localPath w
  rw [ht, List.append_assoc] at hrun
  have hc := List.append_cancel_left hrun
  constructor
  · intro p err he
    subst he
    obtain ⟨-, msg, hw, hr⟩ := failedCall_is_last ha hc (by simp [Event.wrapped])
    simp only [Event.wrapped, Option.some.injEq] at hw
    rw [hr, hw]
  · intro p url lp err he
    subst he
    obtain ⟨-, msg, hw, hr⟩ := failedCall_is_last ha hc (by simp [Event.wrapped])
    simp only [Event.wrapped, Option.some.injEq] at hw
    rw [hr, hw]

theorem downloadDirectory_error_wrapped_once_witness :
    (downloadDirectory 5 acmeBroken acmeUtils "src/utils".toList "utils".toList
      (World.initial (FS.ofDirs [".".toList, "utils".toList]) [])).2
      = .failure ("failed to get directory contents for ".toList ++ "src/utils/sub".toList
          ++ ": ".toList ++ "repository, branch, or path not found".toList) :=
  (downloadDirectory_error_wrapped_once 5 acmeBroken acmeUtils "src/utils".toList
    "utils".toList (World.initial (FS.ofDirs [".".toList, "utils".toList]) [])
    [.listing "src/utils".toList none,
     .fetch "src/utils/a.go".toList "raw/a.go".toList "utils/a.go".toList none,
     .mkdirAll "utils/sub".toList none] []
    (.listing "src/utils/sub".toList (some "repository, branch, or path not found".toList))
    (by decide)).1 _ _ rfl

/-! ## The arguments: C8 -/

theorem strings.HasPrefix_eq_append {s p : Str} (h : strings.HasPrefix s p = true) :
    ∃ r, s = p ++ r := by
  induction p generalizing s with
  | nil => exact ⟨s, rfl⟩
  | cons c p ih =>
    cases s with
    | nil => simp [strings.HasPrefix] at h
    | cons d s =>
      simp only [strings.HasPrefix, Bool.and_eq_true, beq_iff_eq] at h
      obtain ⟨r, hr⟩ := ih h.2
      exact ⟨r, by rw [h.1, hr]; rfl⟩

/-- C8: the four spellings of the directory flag are accepted and give the same output
directory and link, `.` standing for an empty directory; a link alone gives `.`. -/
theorem parseArgs_flag_spellings (prog p l : Str)
    (hl : strings.HasPrefix l "https://github.com/".toList = true) :
    parseArgs prog ["-d".toList, p, l] = .ok (if p = [] then ".".toList else p, l) ∧
    parseArgs prog ["--dir".toList, p, l] = .ok (if p = [] then ".".toList else p, l) ∧
    parseArgs prog ["-d=".toList ++ p, l] = .ok (if p = [] then ".".toList else p, l) ∧
    parseArgs prog ["--dir=".toList ++ p, l] = .ok (if p = [] then ".".toList else p, l) ∧
    parseArgs prog [l] = .ok (".".toList, l) := by
  obtain ⟨r, rfl⟩ := strings.HasPrefix_eq_append hl
  refine ⟨?_, ?_, ?_, ?_, ?_⟩ <;> simp [parseArgs, argLoop, strings.HasPrefix]

theorem parseArgs_flag_spellings_witness :
    parseArgs "tool".toList ["--dir=".toList ++ "out".toList,
        "https://github.com/acme/widgets/tree/main/src/utils".toList]
      = .ok ("out".toList, "https://github.com/acme/widgets/tree/main/src/utils".toList) :=
  (parseArgs_flag_spellings "tool".toList "out".toList
    "https://github.com/acme/widgets/tree/main/src/utils".toList (by decide)).2.2.2.1
/-! ## The overwrite confirmation and the local root folder: C6, C10 -/

theorem not_cons_suffix_self (name : Str) (up : List Str) : ¬ (name :: up) <:+ up := by
  intro h
  have := h.length_le
  simp at this

/-- C10 at the failing input: the link `https://github.com/acme/widgets/tree/main/..`
parses, and with the output directory `a/b` the local root folder is `a`, the parent of
the output directory; after the answer `y` the run has removed it with all that was in
it, the file `a/keep.txt` included. -/
theorem downloadSubdirectory_target_is_parent :
    parseGitHubLink "https://github.com/acme/widgets/tree/main/..".toList
      = .ok ⟨"acme".toList, "widgets".toList, "main".toList, "..".toList⟩ ∧
    filepath.Join "a/b".toList (filepath.Base "..".toList) = "a".toList ∧
    pathKey "a/b".toList = (pathKey "a".toList).child "b".toList ∧
    os.Stat fsKeep "a/keep.txt".toList = some (Node.file [107]) ∧
    os.Stat (downloadSubdirectory 5 acme
      ⟨"acme".toList, "widgets".toList, "main".toList, "..".toList⟩
      "a/b".toList (World.initial fsKeep "y\n".toList)).1.fs "a/keep.txt".toList = none ∧
    (downloadSubdirectory 5 acme
      ⟨"acme".toList, "widgets".toList, "main".toList, "..".toList⟩
      "a/b".toList (World.initial fsKeep "y\n".toList)).1.trace.take 2
      = [.mkdirAll "a/b".toList none, .removeAll "a".toList none] := by
  decide
/-! ## Mirroring: C4 -/

theorem PathKey.extend_nil (K : PathKey) : K.extend [] = K := by
  simp [PathKey.extend]

theorem PathKey.child_extend (K : PathKey) (name : Str) (rel : List Str) :
    (K.child name).extend rel = K.extend (name :: rel) := by
  simp [PathKey.extend, PathKey.child]

theorem PathKey.child_eq_extend (K : PathKey) (name : Str) : K.child name = K.extend [name] := by
  simp [PathKey.extend, PathKey.child]

theorem PathKey.extend_inj {K : PathKey} {rel1 rel2 : List Str}
    (h : K.extend rel1 = K.extend rel2) : rel1 = rel2 := by
  simp only [PathKey.extend, PathKey.mk.injEq, true_and] at h
  exact List.reverse_injective (List.append_cancel_right h)

theorem PathKey.extend_ne_self (K : PathKey) {rel : List Str} (h : rel ≠ []) :
    K.extend rel ≠ K := by
  intro e
  rw [← PathKey.extend_nil K] at e
  have := PathKey.extend_inj (by simpa [PathKey.extend_nil] using e : K.extend rel = K.extend [])
  exact h this

theorem FS.set_eq (fs : FS) (k : PathKey) (n : Option Node) : fs.set k n k = n := by
  simp [FS.set]

theorem FS.set_ne (fs : FS) {k k' : PathKey} (n : Option Node) (h : k' ≠ k) :
    fs.set k n k' = fs k' := by
  simp [FS.set, h]

theorem mem_remoteFilesOf_head {env : Remote} {files : Str → List (List Str × Bytes)}
    {items : List GitHubContent} {rel : List Str} {body : Bytes}
    (h : (rel, body) ∈ remoteFilesOf env files items) :
    ∃ item ∈ items, ∃ rel', rel = item.Name :: rel' := by
  induction items with
  | nil => simp [remoteFilesOf] at h
  | cons item rest ih =>
    simp only [remoteFilesOf, List.mem_append] at h
    rcases h with h | h
    · refine ⟨item, by simp, ?_⟩
      split at h
      · simp only [List.mem_map, Prod.mk.injEq] at h
        obtain ⟨f, -, hf, -⟩ := h
        exact ⟨f.1, hf.symm⟩
      · split at h
        · split at h
          · split at h
            · simp only [List.mem_singleton, Prod.mk.injEq] at h
              exact ⟨[], h.1⟩
            · simp at h
          · simp at h
        · simp at h
    · obtain ⟨it, hit, rel', hr⟩ := ih h
      exact ⟨it, by simp [hit], rel', hr⟩

theorem remoteFiles_rel_ne_nil {env : Remote} {repoInfo : RepoInfo} {depth : Nat}
    {remotePath : Str} {rel : List Str} {body : Bytes}
    (h : (rel, body) ∈ remoteFiles env repoInfo depth remotePath) : rel ≠ [] := by
  cases depth with
  | zero => simp [remoteFiles] at h
  | succ d =>
    simp only [remoteFiles] at h
    split at h
    · simp at h
    · obtain ⟨item, -, rel', hr⟩ := mem_remoteFilesOf_head h
      simp [hr]

theorem os.Create_child {fs : FS} {lp : Str} {name : Str} (hord : Ordinary name)
    (hlen : utf8Len name ≤ nameMax) (hc : checkPath (filepath.Join lp name) = .ok ())
    (hreach : Reachable fs (pathKey lp).rooted (pathKey lp).elems)
    (hdir : fs (pathKey lp) = some Node.dir)
    (hnone : fs ((pathKey lp).child name) = none) :
    os.Create fs (filepath.Join lp name)
      = .ok (fs.set ((pathKey lp).child name) (some (Node.file []))) := by
  rw [filepath.Join_eq_renderKey lp hord] at hc ⊢
  exact os.Create_renderKey_child (pathKey lp) (pathKey_normal lp) hord hlen hreach hdir hnone hc

theorem downloadFile_child {env : Remote} {fs : FS} {lp : Str} {name url : Str} {body : Bytes}
    (hord : Ordinary name) (hlen : utf8Len name ≤ nameMax)
    (hc : checkPath (filepath.Join lp name) = .ok ())
    (hreach : Reachable fs (pathKey lp).rooted (pathKey lp).elems)
    (hraw : env.raw url = .response 200 body none)
    (hdir : fs (pathKey lp) = some Node.dir)
    (hnone : fs ((pathKey lp).child name) = none) :
    downloadFile env url (filepath.Join lp name) fs
      = (fs.set ((pathKey lp).child name) (some (Node.file body)), .ok ()) := by
  unfold downloadFile
  rw [hraw]
  simp only [ne_eq, not_true_eq_false, if_false,
    os.Create_child hord hlen hc hreach hdir hnone, io.Copy,
    pathKey_Join lp hord, Prod.mk.injEq, and_true]
  funext k
  by_cases hk : k = (pathKey lp).child name
  · simp [FS.set, hk]
  · simp [FS.set, hk]

theorem os.MkdirAll_child {fs : FS} {lp : Str} {name : Str} (hord : Ordinary name)
    (hlen : utf8Len name ≤ nameMax) (hc : checkPath (filepath.Join lp name) = .ok ())
    (hreach : Reachable fs (pathKey lp).rooted (pathKey lp).elems)
    (hdir : fs (pathKey lp) = some Node.dir)
    (hnone : fs ((pathKey lp).child name) = none) :
    os.MkdirAll fs (filepath.Join lp name)
      = .ok (fs.set ((pathKey lp).child name) (some Node.dir)) := by
  rw [filepath.Join_eq_renderKey lp hord] at hc ⊢
  exact os.MkdirAll_renderKey_child (pathKey lp) (pathKey_normal lp) hord hlen hreach hdir
    hnone hc

/-- A place below the directory at `K` is none of the directories on the way to `K`. -/
theorem suffix_ne_extend_cons (K : PathKey) {t : List Str} (ht : t <:+ K.elems)
    (name : Str) (rel : List Str) :
    (⟨K.rooted, t⟩ : PathKey) ≠ K.extend (name :: rel) := by
  intro e
  simp only [PathKey.extend, PathKey.mk.injEq, true_and] at e
  have h1 := ht.length_le
  have h2 := congrArg List.length e
  simp only [List.length_append, List.length_reverse, List.length_cons] at h2
  omega

theorem mem_remoteFilesOf_cons_file {env : Remote} {files : Str → List (List Str × Bytes)}
    {item : GitHubContent} {rest : List GitHubContent} {body : Bytes}
    (hfile : item.Type_ = "file".toList)
    (hraw : env.raw item.DownloadURL = .response 200 body none) (rel : List Str) (b : Bytes) :
    (rel, b) ∈ remoteFilesOf env files (item :: rest) ↔
      (rel = [item.Name] ∧ b = body) ∨ (rel, b) ∈ remoteFilesOf env files rest := by
  have hfd : ¬ ("file".toList = "dir".toList) := by decide
  simp only [remoteFilesOf, hfile, hfd, if_false, if_true, hraw, and_self, List.mem_append,
    List.mem_singleton, Prod.mk.injEq]

theorem mem_remoteFilesOf_cons_dir {env : Remote} {files : Str → List (List Str × Bytes)}
    {item : GitHubContent} {rest : List GitHubContent}
    (hdir : item.Type_ = "dir".toList) (rel : List Str) (b : Bytes) :
    (rel, b) ∈ remoteFilesOf env files (item :: rest) ↔
      (∃ rel', rel = item.Name :: rel' ∧ (rel', b) ∈ files item.Path) ∨
        (rel, b) ∈ remoteFilesOf env files rest := by
  simp only [remoteFilesOf, hdir, if_true, List.mem_append, List.mem_map, Prod.mk.injEq]
  constructor
  · rintro (⟨f, hf, h1, h2⟩ | h)
    · left
      refine ⟨f.1, h1.symm, ?_⟩
      rw [← h2]; exact hf
    · right; exact h
  · rintro (⟨rel', h1, h2⟩ | h)
    · left; exact ⟨(rel', b), h2, h1.symm, rfl⟩
    · right; exact h

/-- The loop of `downloadDirectory` over entries with ordinary, distinct names, whose
places in the local directory are free: it succeeds, touches nothing but the places of
these entries, and leaves the files of the remote tree there. -/
theorem downloadItems_mirrors (env : Remote) (repoInfo : RepoInfo) (depth fuel : Nat)
    (lp : Str)
    (ih : ∀ (rp lp : Str) (w : World), RemoteTree env repoInfo depth rp →
      LocalNamesOK env repoInfo depth rp lp → w.fs (pathKey lp) = some Node.dir →
      Reachable w.fs (pathKey lp).rooted (pathKey lp).elems →
      (∀ rel, rel ≠ [] → w.fs ((pathKey lp).extend rel) = none) →
      MirrorsInto env repoInfo depth rp (pathKey lp) w.fs
        (downloadDirectory fuel env repoInfo rp lp w))
    (items : List GitHubContent) (w : World)
    (hitems : ∀ item ∈ items, Ordinary item.Name ∧ utf8Len item.Name ≤ nameMax ∧
      checkPath (filepath.Join lp item.Name) = .ok () ∧
      ((item.Type_ = "file".toList ∧ ∃ body, env.raw item.DownloadURL = .response 200 body none) ∨
       (item.Type_ = "dir".toList ∧ RemoteTree env repoInfo depth item.Path ∧
          LocalNamesOK env repoInfo depth item.Path (filepath.Join lp item.Name))))
    (hnodup : (items.map (fun item => item.Name)).Nodup)
    (hdir : w.fs (pathKey lp) = some Node.dir)
    (hreach : Reachable w.fs (pathKey lp).rooted (pathKey lp).elems)
    (hempty : ∀ item ∈ items, ∀ rel, w.fs ((pathKey lp).extend (item.Name :: rel)) = none) :
    (downloadItems env (downloadDirectory fuel env repoInfo) lp items w).2 = .success ∧
    (∀ k, (∀ item ∈ items, ∀ rel, k ≠ (pathKey lp).extend (item.Name :: rel)) →
      (downloadItems env (downloadDirectory fuel env repoInfo) lp items w).1.fs k = w.fs k) ∧
    (∀ item ∈ items, ∀ rel body,
      ((downloadItems env (downloadDirectory fuel env repoInfo) lp items w).1.fs
          ((pathKey lp).extend (item.Name :: rel)) = some (Node.file body) ↔
        (item.Name :: rel, body) ∈ remoteFilesOf env (remoteFiles env repoInfo depth) items)) := by
  induction items generalizing w with
  | nil => simp [downloadItems]
  | cons item rest ihl =>
    obtain ⟨hord, hlen, hcheck, hkind⟩ := hitems item (by simp)
    have hnd : item.Name ∉ rest.map (fun item => item.Name) ∧
        (rest.map (fun item => item.Name)).Nodup := by
      simpa using hnodup
    have hrestne : ∀ it ∈ rest, it.Name ≠ item.Name := by
      intro it hit e
      exact hnd.1 (List.mem_map.2 ⟨it, hit, e⟩)
    have hnone : w.fs ((pathKey lp).child item.Name) = none := by
      rw [PathKey.child_eq_extend]
      exact hempty item (by simp) []
    -- an entry of the rest is never in the place of the first entry
    have hsep : ∀ it ∈ rest, ∀ rel rel',
        (pathKey lp).extend (it.Name :: rel) ≠ (pathKey lp).extend (item.Name :: rel') := by
      intro it hit rel rel' e
      have := PathKey.extend_inj e
      simp only [List.cons.injEq] at this
      exact hrestne it hit this.1
    have hrestfiles : ∀ rel body, (item.Name :: rel, body)
        ∉ remoteFilesOf env (remoteFiles env repoInfo depth) rest := by
      intro rel body hm
      obtain ⟨it, hit, rel', hr⟩ := mem_remoteFilesOf_head hm
      simp only [List.cons.injEq] at hr
      exact hrestne it hit hr.1.symm
    rcases hkind with ⟨hfile, body, hraw⟩ | ⟨hdirT, htree, hnames⟩
    · -- the entry is a file
      have hnotdir : item.Type_ ≠ "dir".toList := by rw [hfile]; decide
      have hdl := @downloadFile_child env w.fs lp item.Name item.DownloadURL body hord hlen hcheck
        hreach hraw hdir hnone
      have hstep : downloadItems env (downloadDirectory fuel env repoInfo) lp (item :: rest) w
          = downloadItems env (downloadDirectory fuel env repoInfo) lp rest
              (({ (w.print ("📄 ".toList ++ item.Name ++ "\n".toList)) with
                  fs := w.fs.set ((pathKey lp).child item.Name) (some (Node.file body)) } :
                    World).log
                (.fetch item.Path item.DownloadURL (filepath.Join lp item.Name) none)) := by
        have hfd : ¬ ("file".toList = "dir".toList) := by decide
        rw [downloadItems]
        simp only [hfile, hfd, if_false, if_true, World.print, hdl]
      rw [hstep]
      generalize hw2 : (({ (w.print ("📄 ".toList ++ item.Name ++ "\n".toList)) with
          fs := w.fs.set ((pathKey lp).child item.Name) (some (Node.file body)) } :
            World).log
          (.fetch item.Path item.DownloadURL (filepath.Join lp item.Name) none)) = w2
      have hfs2 : w2.fs = w.fs.set ((pathKey lp).child item.Name) (some (Node.file body)) := by
        rw [← hw2]; rfl
      have hdir2 : w2.fs (pathKey lp) = some Node.dir := by
        rw [hfs2, FS.set_ne _ _ (by
          rw [PathKey.child_eq_extend]
          exact (PathKey.extend_ne_self _ (by simp)).symm)]
        exact hdir
      have hreach2 : Reachable w2.fs (pathKey lp).rooted (pathKey lp).elems := by
        refine Reachable_congr (fun t ht => ?_) hreach
        rw [hfs2, FS.set_ne _ _ (by
          rw [PathKey.child_eq_extend]
          exact suffix_ne_extend_cons _ ht _ _)]
      have hempty2 : ∀ it ∈ rest, ∀ rel,
          w2.fs ((pathKey lp).extend (it.Name :: rel)) = none := by
        intro it hit rel
        rw [hfs2, FS.set_ne _ _ (by
          rw [PathKey.child_eq_extend]
          exact hsep it hit rel [])]
        exact hempty it (by simp [hit]) rel
      obtain ⟨hs, hframe, hchar⟩ := ihl w2 (fun it hit => hitems it (by simp [hit])) hnd.2
        hdir2 hreach2 hempty2
      refine ⟨hs, ?_, ?_⟩
      · intro k hk
        rw [hframe k (fun it hit rel => hk it (by simp [hit]) rel), hfs2,
          FS.set_ne _ _ (by
            rw [PathKey.child_eq_extend]
            exact hk item (by simp) [])]
      · intro it hit rel b
        rcases List.mem_cons.1 hit with rfl | hit'
        · -- the place of the file itself
          rw [hframe _ (fun it' hit' rel' => (hsep it' hit' rel' rel).symm), hfs2]
          have hfiles : (it.Name :: rel, b)
              ∈ remoteFilesOf env (remoteFiles env repoInfo depth) (it :: rest)
              ↔ rel = [] ∧ b = body := by
            rw [mem_remoteFilesOf_cons_file hfile hraw]
            simp only [List.cons.injEq, true_and, hrestfiles rel b, or_false]
          rw [hfiles]
          by_cases hrel : rel = []
          · subst hrel
            rw [← PathKey.child_eq_extend, FS.set_eq]
            simp only [Option.some.injEq, Node.file.injEq, true_and]
            exact eq_comm
          · rw [FS.set_ne _ _ (by
              rw [PathKey.child_eq_extend]
              intro e
              have := PathKey.extend_inj e
              simp only [List.cons.injEq, true_and] at this
              exact hrel this)]
            rw [hempty it (by simp) rel]
            simp [hrel]
        · rw [hchar it hit' rel b, mem_remoteFilesOf_cons_file hfile hraw]
          have hne : it.Name ≠ item.Name := hrestne it hit'
          simp only [List.cons.injEq, hne, false_and, false_or]
    · -- the entry is a directory
      have hmk := os.MkdirAll_child hord hlen hcheck hreach hdir hnone
      generalize hw1 : ((({ w with
          fs := w.fs.set ((pathKey lp).child item.Name) (some Node.dir) } : World).log
            (.mkdirAll (filepath.Join lp item.Name) none)).print
              ("📁 ".toList ++ item.Path ++ "/\n".toList)) = w1
      have hfs1 : w1.fs = w.fs.set ((pathKey lp).child item.Name) (some Node.dir) := by
        rw [← hw1]; rfl
      have hkey : pathKey (filepath.Join lp item.Name) = (pathKey lp).child item.Name :=
        pathKey_Join lp hord
      have hreach1 : Reachable w1.fs (pathKey lp).rooted (pathKey lp).elems := by
        refine Reachable_congr (fun t ht => ?_) hreach
        rw [hfs1, FS.set_ne _ _ (by
          rw [PathKey.child_eq_extend]
          exact suffix_ne_extend_cons _ ht _ _)]
      have hdir1 : w1.fs (pathKey lp) = some Node.dir := by
        rw [hfs1, FS.set_ne _ _ (by
          rw [PathKey.child_eq_extend]
          exact (PathKey.extend_ne_self _ (by simp)).symm)]
        exact hdir
      have hsub := ih item.Path (filepath.Join lp item.Name) w1 htree hnames
        (by rw [hkey, hfs1, FS.set_eq])
        (by
          rw [hkey]
          exact ⟨hdir1, fun _ => hlen, hreach1⟩)
        (by
          intro rel hrel
          rw [hkey, PathKey.child_extend, hfs1, FS.set_ne _ _ (by
            rw [PathKey.child_eq_extend]
            intro e
            have := PathKey.extend_inj e
            simp only [List.cons.injEq, true_and] at this
            exact hrel this)]
          exact hempty item (by simp) rel)
      rw [hkey] at hsub
      obtain ⟨hs1, hframe1, hchar1⟩ := hsub
      generalize hr : downloadDirectory fuel env repoInfo item.Path
        (filepath.Join lp item.Name) w1 = r at hs1 hframe1 hchar1
      obtain ⟨w2, res⟩ := r
      simp only at hs1 hframe1 hchar1
      subst hs1
      have hstep : downloadItems env (downloadDirectory fuel env repoInfo) lp (item :: rest) w
          = downloadItems env (downloadDirectory fuel env repoInfo) lp rest w2 := by
        rw [downloadItems]
        simp only [hdirT, if_true, hmk, hw1, hr]
      rw [hstep]
      -- what the run below the new directory has left outside it
      have hout : ∀ k, (∀ rel, k ≠ (pathKey lp).extend (item.Name :: rel)) → w2.fs k = w.fs k := by
        intro k hk
        rw [hframe1 k (fun rel _ => by rw [PathKey.child_extend]; exact hk rel), hfs1,
          FS.set_ne _ _ (by rw [PathKey.child_eq_extend]; exact hk [])]
      have hdir2 : w2.fs (pathKey lp) = some Node.dir := by
        rw [hout _ (fun rel => (PathKey.extend_ne_self _ (by simp)).symm)]
        exact hdir
      have hreach2 : Reachable w2.fs (pathKey lp).rooted (pathKey lp).elems := by
        refine Reachable_congr (fun t ht => ?_) hreach
        exact hout _ (fun rel => suffix_ne_extend_cons _ ht _ _)
      have hempty2 : ∀ it ∈ rest, ∀ rel,
          w2.fs ((pathKey lp).extend (it.Name :: rel)) = none := by
        intro it hit rel
        rw [hout _ (fun rel' => hsep it hit rel rel')]
        exact hempty it (by simp [hit]) rel
      obtain ⟨hs, hframe, hchar⟩ := ihl w2 (fun it hit => hitems it (by simp [hit])) hnd.2
        hdir2 hreach2 hempty2
      refine ⟨hs, ?_, ?_⟩
      · intro k hk
        rw [hframe k (fun it hit rel => hk it (by simp [hit]) rel),
          hout k (fun rel => hk item (by simp) rel)]
      · intro it hit rel b
        rcases List.mem_cons.1 hit with rfl | hit'
        · rw [hframe _ (fun it' hit' rel' => (hsep it' hit' rel' rel).symm)]
          have hfiles : (it.Name :: rel, b)
              ∈ remoteFilesOf env (remoteFiles env repoInfo depth) (it :: rest)
              ↔ (rel, b) ∈ remoteFiles env repoInfo depth it.Path := by
            rw [mem_remoteFilesOf_cons_dir hdirT]
            simp only [List.cons.injEq, true_and, hrestfiles rel b, or_false]
            constructor
            · rintro ⟨rel', h1, h2⟩
              rw [h1]; exact h2
            · intro h
              exact ⟨rel, rfl, h⟩
          rw [hfiles]
          by_cases hrel : rel = []
          · subst hrel
            have hk : w2.fs ((pathKey lp).extend [it.Name]) = some Node.dir := by
              rw [← PathKey.child_eq_extend,
                hframe1 _ (fun rel hrel => (PathKey.extend_ne_self _ hrel).symm), hfs1,
                FS.set_eq]
            rw [hk]
            constructor
            · intro h; simp at h
            · intro h; exact absurd rfl (remoteFiles_rel_ne_nil h)
          · rw [← PathKey.child_extend]
            exact hchar1 rel b hrel
        · rw [hchar it hit' rel b, mem_remoteFilesOf_cons_dir hdirT]
          have hne : it.Name ≠ item.Name := hrestne it hit'
          simp only [List.cons.injEq, hne, false_and, exists_false, false_or]
/-- A run of `downloadDirectory` on a finite remote tree with ordinary names, into an
existing directory with nothing below it, mirrors the tree. -/
theorem downloadDirectory_mirrorsInto (env : Remote) (repoInfo : RepoInfo) (depth : Nat) :
    ∀ (rp lp : Str) (w : World), RemoteTree env repoInfo depth rp →
      LocalNamesOK env repoInfo depth rp lp → w.fs (pathKey lp) = some Node.dir →
      Reachable w.fs (pathKey lp).rooted (pathKey lp).elems →
      (∀ rel, rel ≠ [] → w.fs ((pathKey lp).extend rel) = none) →
      ∀ fuel, depth ≤ fuel →
        MirrorsInto env repoInfo depth rp (pathKey lp) w.fs
          (downloadDirectory fuel env repoInfo rp lp w) := by
  induction depth with
  | zero => intro rp lp w htree; exact absurd htree (by simp [RemoteTree])
  | succ depth ihd =>
    intro rp lp w htree hnames hdir hreach hempty fuel hfuel
    obtain ⟨fuel', rfl⟩ : ∃ fuel', fuel = fuel' + 1 := ⟨fuel - 1, by omega⟩
    have hfuel' : depth ≤ fuel' := by omega
    obtain ⟨items, hlist, hne, hnodup, hkinds⟩ := htree
    have hlen : ¬ items.length = 0 := by
      cases items with
      | nil => exact absurd rfl hne
      | cons _ _ => simp
    have hitems : ∀ item ∈ items, Ordinary item.Name ∧ utf8Len item.Name ≤ nameMax ∧
        checkPath (filepath.Join lp item.Name) = .ok () ∧
        ((item.Type_ = "file".toList ∧
            ∃ body, env.raw item.DownloadURL = .response 200 body none) ∨
         (item.Type_ = "dir".toList ∧ RemoteTree env repoInfo depth item.Path ∧
            LocalNamesOK env repoInfo depth item.Path (filepath.Join lp item.Name))) := by
      intro item hitem
      obtain ⟨hord, hlen, hcheck, hsub⟩ := hnames items hlist item hitem
      refine ⟨hord, hlen, hcheck, ?_⟩
      rcases hkinds item hitem with h | ⟨hd, ht⟩
      · exact Or.inl h
      · exact Or.inr ⟨hd, ht, hsub hd⟩
    have hloop := downloadItems_mirrors env repoInfo depth fuel' lp
      (fun rp lp w h1 h2 h3 h4 h5 => ihd rp lp w h1 h2 h3 h4 h5 fuel' hfuel')
      items (w.log (.listing rp none)) hitems hnodup hdir hreach
      (fun item _ rel => hempty (item.Name :: rel) (by simp))
    have hrun : downloadDirectory (fuel' + 1) env repoInfo rp lp w
        = downloadItems env (downloadDirectory fuel' env repoInfo) lp items
            (w.log (.listing rp none)) := by
      rw [downloadDirectory]
      simp only [hlist, hlen, if_false]
    have hfiles : remoteFiles env repoInfo (depth + 1) rp
        = remoteFilesOf env (remoteFiles env repoInfo depth) items := by
      rw [remoteFiles]
      simp only [hlist]
    rw [hrun]
    obtain ⟨hs, hframe, hchar⟩ := hloop
    refine ⟨hs, ?_, ?_⟩
    · intro k hk
      rw [hframe k (fun item _ rel => hk (item.Name :: rel) (by simp))]
      rfl
    · intro rel body hrel
      rw [hfiles]
      cases rel with
      | nil => exact absurd rfl hrel
      | cons n rel' =>
        by_cases hn : ∃ item ∈ items, item.Name = n
        · obtain ⟨item, hitem, rfl⟩ := hn
          exact hchar item hitem rel' body
        · have hk : ∀ item ∈ items, ∀ rel,
              (pathKey lp).extend (n :: rel') ≠ (pathKey lp).extend (item.Name :: rel) := by
            intro item hitem rel e
            have := PathKey.extend_inj e
            simp only [List.cons.injEq] at this
            exact hn ⟨item, hitem, this.1.symm⟩
          rw [hframe _ hk]
          have hw : (w.log (.listing rp none)).fs ((pathKey lp).extend (n :: rel')) = none :=
            hempty (n :: rel') (by simp)
          rw [hw]
          constructor
          · intro h; simp at h
          · intro h
            obtain ⟨item, hitem, rel'', hr⟩ := mem_remoteFilesOf_head h
            simp only [List.cons.injEq] at hr
            exact absurd ⟨item, hitem, hr.1.symm⟩ hn

theorem remoteFilesOf_nodup (env : Remote) (files : Str → List (List Str × Bytes))
    (items : List GitHubContent)
    (hfiles : ∀ item ∈ items, item.Type_ = "dir".toList →
      ((files item.Path).map Prod.fst).Nodup)
    (hnodup : (items.map (fun item => item.Name)).Nodup) :
    ((remoteFilesOf env files items).map Prod.fst).Nodup := by
  induction items with
  | nil => simp [remoteFilesOf]
  | cons item rest ih =>
    have hnd : item.Name ∉ rest.map (fun item => item.Name) ∧
        (rest.map (fun item => item.Name)).Nodup := by
      simpa using hnodup
    have hrest := ih (fun it hit => hfiles it (by simp [hit])) hnd.2
    have hhead : ((remoteFilesOf env files [item]).map Prod.fst).Nodup := by
      simp only [remoteFilesOf, List.append_nil]
      split
      · rename_i hd
        have hinj : Function.Injective (fun rel : List Str => item.Name :: rel) := by
          intro a b h
          simpa using h
        have := (hfiles item (by simp) hd).map hinj
        simpa [List.map_map, Function.comp_def] using this
      · split
        · split
          · split <;> simp
          · simp
        · simp
    have hsplit : remoteFilesOf env files (item :: rest)
        = remoteFilesOf env files [item] ++ remoteFilesOf env files rest := by
      simp [remoteFilesOf]
    rw [hsplit, List.map_append, List.nodup_append]
    refine ⟨hhead, hrest, ?_⟩
    intro rel h1 h2
    obtain ⟨⟨rel1, b1⟩, hm1, e1⟩ := List.mem_map.1 h1
    obtain ⟨⟨rel2, b2⟩, hm2, e2⟩ := List.mem_map.1 h2
    simp only at e1 e2
    subst e1
    subst e2
    obtain ⟨it1, hit1, r1, hr1⟩ := mem_remoteFilesOf_head hm1
    obtain ⟨it2, hit2, r2, hr2⟩ := mem_remoteFilesOf_head hm2
    simp only [List.mem_singleton] at hit1
    subst hit1
    rw [hr1] at hr2
    simp only [List.cons.injEq] at hr2
    exact hnd.1 (List.mem_map.2 ⟨it2, hit2, hr2.1.symm⟩)

theorem remoteFiles_nodup (env : Remote) (repoInfo : RepoInfo) (depth : Nat) :
    ∀ rp, RemoteTree env repoInfo depth rp →
      ((remoteFiles env repoInfo depth rp).map Prod.fst).Nodup := by
  induction depth with
  | zero => intro rp h; exact absurd h (by simp [RemoteTree])
  | succ depth ih =>
    intro rp htree
    obtain ⟨items, hlist, -, hnodup, hkinds⟩ := htree
    rw [remoteFiles]
    simp only [hlist]
    refine remoteFilesOf_nodup env _ items ?_ hnodup
    intro item hitem hd
    rcases hkinds item hitem with ⟨hf, -⟩ | ⟨-, ht⟩
    · rw [hf] at hd
      exact absurd hd (by decide)
    · exact ih item.Path ht

theorem acme_remoteTree : RemoteTree acme acmeUtils 2 "src/utils".toList := by
  refine ⟨_, rfl, by decide, by decide, ?_⟩
  intro item hitem
  simp only [List.mem_cons, List.mem_singleton, List.not_mem_nil, or_false] at hitem
  rcases hitem with rfl | rfl
  · exact Or.inl ⟨rfl, _, rfl⟩
  · refine Or.inr ⟨rfl, _, rfl, by decide, by decide, ?_⟩
    intro item hitem
    simp only [List.mem_cons, List.mem_singleton, List.not_mem_nil, or_false] at hitem
    subst hitem
    exact Or.inl ⟨rfl, _, rfl⟩

theorem acme_localNamesOK :
    LocalNamesOK acme acmeUtils 2 "src/utils".toList "utils".toList := by
  intro items hlist item hitem
  have h : getDirectoryContents acme acmeUtils "src/utils".toList = .ok
      [⟨"a.go".toList, "src/utils/a.go".toList, "file".toList, "raw/a.go".toList, []⟩,
       ⟨"sub".toList, "src/utils/sub".toList, "dir".toList, [], []⟩] := rfl
  rw [h] at hlist
  cases hlist
  simp only [List.mem_cons, List.mem_singleton, List.not_mem_nil, or_false] at hitem
  rcases hitem with rfl | rfl
  · exact ⟨by decide, by decide, by decide, fun h => absurd h (by decide)⟩
  · refine ⟨by decide, by decide, by decide, fun _ => ?_⟩
    intro items hlist item hitem
    have h : getDirectoryContents acme acmeUtils "src/utils/sub".toList = .ok
        [⟨"b.go".toList, "src/utils/sub/b.go".toList, "file".toList, "raw/b.go".toList, []⟩] :=
      rfl
    rw [h] at hlist
    cases hlist
    simp only [List.mem_cons, List.mem_singleton, List.not_mem_nil, or_false] at hitem
    subst hitem
    exact ⟨by decide, by decide, by decide, fun _ => trivial⟩

theorem ofDirs_utils_empty (rel : List Str) (hrel : rel ≠ []) :
    FS.ofDirs [".".toList, "utils".toList] ((pathKey "utils".toList).extend rel) = none := by
  have h1 : pathKey ".".toList = ⟨false, []⟩ := by decide
  have h2 : pathKey "utils".toList = ⟨false, ["utils".toList]⟩ := by decide
  unfold FS.ofDirs
  rw [if_neg]
  simp only [List.map_cons, List.map_nil, h1, h2, PathKey.extend, List.mem_cons,
    PathKey.mk.injEq, true_and, List.not_mem_nil, or_false, not_or]
  constructor
  · simp
  · intro h
    have := congrArg List.length h
    simp only [List.length_append, List.length_reverse, List.length_cons, List.length_nil] at this
    have : rel.length = 0 := by omega
    exact hrel (List.length_eq_zero.1 this)

theorem twoNames_remoteTree :
    RemoteTree twoNames ⟨"o".toList, "r".toList, "b".toList, "d".toList⟩ 1 "d".toList := by
  refine ⟨_, rfl, by decide, by decide, ?_⟩
  intro item hitem
  simp only [List.mem_cons, List.mem_singleton, List.not_mem_nil, or_false] at hitem
  rcases hitem with rfl | rfl
  · exact Or.inl ⟨rfl, _, rfl⟩
  · exact Or.inl ⟨rfl, _, rfl⟩

/-- The end-to-end example of the specification, through `main`: the link
`https://github.com/acme/widgets/tree/main/src/utils` gives the local files
`./utils/a.go` and `./utils/sub/b.go`, with the payloads served, and exit status 0. -/
theorem main_end_to_end :
    (main 3 acme "tool".toList ["https://github.com/acme/widgets/tree/main/src/utils".toList]
      (World.initial (FS.ofDirs [".".toList]) [])).2 = some 0 ∧
    os.Stat (main 3 acme "tool".toList
      ["https://github.com/acme/widgets/tree/main/src/utils".toList]
      (World.initial (FS.ofDirs [".".toList]) [])).1.fs "./utils/a.go".toList
      = some (Node.file [112, 97]) ∧
    os.Stat (main 3 acme "tool".toList
      ["https://github.com/acme/widgets/tree/main/src/utils".toList]
      (World.initial (FS.ofDirs [".".toList]) [])).1.fs "./utils/sub/b.go".toList
      = some (Node.file [112, 98, 10]) := by
  decide
end GhDlp
